import Mathlib

/-!
Verification development for the Mistfall relational runtime
(`src/runtime.ts`, `src/builders.ts`).

The TypeScript source is shallowly embedded:

* JS primitive values that appear as row fields and store keys become the
  inductive type `Value` (`undefined`, `null`, numbers restricted to the
  integers the runtime actually produces, strings, booleans).
* JS objects (rows, patches) become association lists `Obj` with
  own-property semantics: `Obj.get` returns `Value.undef` for an absent
  key, `Obj.hasOwn` detects literal key presence, `Obj.set` mirrors
  `row[k] = v`, and `Obj.merge` mirrors the spread `{...a, ...b}`.
* JS `Map`s (the memory adapter's stores and sequence counters) become
  association lists with `Map` semantics: `mapSet` replaces the value of
  an existing key in place (keeping its position) and appends new keys,
  matching `Map.prototype.set`; iteration order is list order, matching
  JS `Map` insertion-order iteration.
* The adapter's mutable state becomes `MemState`, and every method body
  becomes a function in the monad `M α = MemState → Except String α ×
  MemState`: a thrown JS error is `Except.error` with the error message,
  and — exactly as with real JS exceptions over mutable state — the state
  at the moment of the throw is retained.
* `async`/`await` sequencing is ordinary monadic sequencing: the runtime
  is single-threaded and every awaited callee is one of the embedded
  functions.
* `cloneRow` (structured clone) is the identity here because embedded
  values are immutable.
-/

namespace Mistfall

/-- A JS primitive value as used by the runtime for row fields and store
keys. The runtime only ever produces integer numbers (identity counters,
caller-supplied keys), so numbers are embedded as `Int`. -/
inductive Value where
  | undef
  | null
  | int (n : Int)
  | str (s : String)
  | bool (b : Bool)
deriving DecidableEq, Repr

/-- Association-list lookup; used both for JS `Map.get` and for reading an
object's own property. Returns the value bound to the first occurrence of
the key. -/
def listGet? {κ α : Type} [DecidableEq κ] : List (κ × α) → κ → Option α
  | [], _ => none
  | p :: rest, k => if p.1 = k then some p.2 else listGet? rest k

/-- JS `Map.has` / key membership. -/
def listHas {κ α : Type} [DecidableEq κ] (m : List (κ × α)) (k : κ) : Bool :=
  (listGet? m k).isSome

/-- JS `Map.set` / `obj[k] = v`: replaces the value at an existing key in
place (the key keeps its position, as in JS `Map`), appends a new key. -/
def mapSet {κ α : Type} [DecidableEq κ] : List (κ × α) → κ → α → List (κ × α)
  | [], k, v => [(k, v)]
  | p :: rest, k, v => if p.1 = k then (k, v) :: rest else p :: mapSet rest k v

/-- JS `Map.delete`: removes the entry with the given key (a `Map` holds at
most one). -/
def mapDelete {κ α : Type} [DecidableEq κ] : List (κ × α) → κ → List (κ × α)
  | [], _ => []
  | p :: rest, k => if p.1 = k then rest else p :: mapDelete rest k

/-- A JS object used as a row or a patch: own properties in insertion
order. A key may be present with value `Value.undef` (an explicitly set
`undefined` property), which `hasOwn` distinguishes from absence. -/
abbrev Obj : Type := List (String × Value)

/-- `row[k]`: an absent key reads as `undefined`. -/
def Obj.get (o : Obj) (k : String) : Value :=
  (listGet? o k).getD Value.undef

/-- `Object.prototype.hasOwnProperty.call(o, k)`. -/
def Obj.hasOwn (o : Obj) (k : String) : Bool :=
  (listGet? o k).isSome

/-- `o[k] = v`. -/
def Obj.set (o : Obj) (k : String) (v : Value) : Obj :=
  mapSet o k v

/-- The object spread `{...a, ...b}`: `a`'s properties first, overridden
by `b`'s, new keys of `b` appended in order. -/
def Obj.merge (a b : Obj) : Obj :=
  b.foldl (fun acc p => mapSet acc p.1 p.2) a

end Mistfall

namespace Mistfall

/-! ## Schema model (`src/ast.ts`, populated by `src/builders.ts`) -/

/-- Materialized foreign-key metadata (`column.foreignKey`), filled in by
`resolveForeignKeys` during schema construction. -/
structure ForeignKey where
  tableName : String
  columnName : String
  onDelete : String
deriving DecidableEq, Repr

/-- The runtime constraint flags carried by every column
(`column.constraints`). -/
structure Constraints where
  notNull : Bool
  primaryKey : Bool
  unique : Bool
  identity : Bool
  hasDefault : Bool
deriving DecidableEq, Repr

/-- A resolved column descriptor (`ColumnDef`). `defaultValue = none`
models the JS field being `undefined`; `defaultFn` and `onUpdateFn` are the
caller-supplied producers, assumed pure as §5 of the spec requires. The
column `kind` string plays no role in the runtime and is omitted. -/
structure Column where
  name : String
  constraints : Constraints
  defaultValue : Option Value
  defaultFn : Option (Unit → Value)
  onUpdateFn : Option (Value → Value)
  foreignKey : Option ForeignKey

/-- A computed-index descriptor (`IndexComputedConfig`). -/
structure ComputedIndex where
  field : String
  expression : Obj → Value

/-- An index descriptor (`IndexDef`). -/
structure IndexDef where
  name : String
  unique : Bool
  sourceColumns : List String
  computed : Option ComputedIndex

/-- A table descriptor (`TableDef`). `columns` is in declaration order,
mirroring `Object.values(table.columns)`; by construction in
`builders.table` each column's `name` equals its record key, so record
lookups on `table.columns` are embedded as name lookups. The `schema`
back-pointer installed by `builders.schema` is passed explicitly as an
`Option Schema` argument wherever the source reads `table.schema`. -/
structure Table where
  name : String
  columns : List Column
  indexes : List IndexDef

/-- A resolved schema document (`SchemaDef`). `tables` is keyed by the
alias used in the schema declaration (the record key), which the runtime
looks up with the referenced table's `name` (`schema.tables[fk.tableName]`).
`nspace` is the source's `namespace` field (a Lean keyword). -/
structure Schema where
  name : String
  version : Nat
  nspace : String
  tables : List (String × Table)

/-- `storeName(schema, table)`. -/
def storeName (schema : Schema) (table : Table) : String :=
  schema.nspace ++ "__" ++ table.name

/-- `table.columns[name]` record access (column record keys equal column
names by construction). -/
def getColumn? (table : Table) (name : String) : Option Column :=
  table.columns.find? (fun c => c.name == name)

/-- `primaryKeyColumn(table)`: first declared primary-key column, or a
thrown schema error. -/
def primaryKeyColumn (table : Table) : Except String Column :=
  match table.columns.find? (fun col => col.constraints.primaryKey) with
  | some pk => Except.ok pk
  | none => Except.error ("Table " ++ table.name ++ " is missing a primary key")

/-- A reverse-dependency entry (`ForeignReference`). -/
structure ForeignReference where
  table : Table
  column : Column

/-- `buildReferenceMap(schema)`: for each target table name, the list of
`(source table, source column)` pairs whose foreign key points at it, in
schema declaration order. -/
def buildReferenceMap (schema : Schema) : List (String × List ForeignReference) :=
  schema.tables.foldl (fun m p =>
    p.2.columns.foldl (fun m column =>
      match column.foreignKey with
      | none => m
      | some fk =>
          mapSet m fk.tableName
            (((listGet? m fk.tableName).getD []) ++ [⟨p.2, column⟩])) m) []

/-- The primary-key check performed by `builders.table` after building the
column record: construction throws when no column carries the primary-key
flag, and otherwise returns the table descriptor. (Index-factory plumbing
and the back-pointer wiring carry no logic and are elided.) -/
def tableBuild (name : String) (columns : List Column) (indexes : List IndexDef) :
    Except String Table :=
  let tableDef : Table := ⟨name, columns, indexes⟩
  if !(columns.any (fun col => col.constraints.primaryKey)) then
    Except.error ("Table " ++ name ++ " must declare a primary key column.")
  else
    Except.ok tableDef

end Mistfall

namespace Mistfall

/-! ## Query evaluator (`applyQueryOptions`) -/

/-- The JS `>` comparison as applied by the sort comparator to order keys.
The spec (§9) restricts `orderBy` selectors to like-typed scalar keys;
between values of different shapes the comparator here answers `false`,
so such pairs compare as equal and keep their input order. -/
def vgt : Value → Value → Bool
  | .int a, .int b => a > b
  | .str a, .str b => b < a
  | .bool a, .bool b => a && !b
  | _, _ => false

/-- `options.orderBy`: a column name (`keyof T`) or a selector function. -/
inductive OrderBy where
  | column (name : String)
  | selector (f : Obj → Value)

/-- `QueryOptions`: all fields optional, as in the source interface. The
source's `where` field is spelled `whereFn` (`where` is a Lean keyword).
`limit` and `offset` are the non-negative integers the contract admits. -/
structure QueryOptions where
  whereFn : Option (Obj → Bool)
  orderBy : Option OrderBy
  order : Option String
  limit : Option Nat
  offset : Option Nat

/-- One insertion step of the stable sort: `a` is placed before the first
element `b` it does not strictly exceed (`comparator(a, b) ≤ 0`, i.e.
`¬(key a > key b)`), skipping over the elements it strictly exceeds. -/
def sortInsertBy {α : Type} (le : α → α → Bool) (a : α) : List α → List α
  | [] => [a]
  | b :: l => if le a b then a :: b :: l else b :: sortInsertBy le a l

/-- The JS engine's `Array.prototype.sort` with the comparator
`(a, b) => a === b ? 0 : (a > b ? 1 : -1)` used by `applyQueryOptions`:
a stable sort placing `a` before `b` exactly when the comparator does not
order `a` strictly after `b`. The engine's algorithm is unspecified but
required to be stable; this structurally recursive insertion sort is such
a stable sort (its stability is proved below, `sortBy_filter_eq_key`). -/
def sortBy {α : Type} (le : α → α → Bool) : List α → List α
  | [] => []
  | a :: l => sortInsertBy le a (sortBy le l)

/-- `Array.prototype.slice(start, stop)` for the in-range non-negative
indices the evaluator produces. -/
def jsSlice {α : Type} (l : List α) (start stop : Nat) : List α :=
  (l.drop start).take (stop - start)

/-- `applyQueryOptions(rows, options)`: filter by `where`, stable-sort by
the `orderBy` key (reversing when `order === 'desc'`), then
`slice(offset, offset + limit)` with `offset ?? 0` and
`limit ?? result.length`. -/
def applyQueryOptions (rows : List Obj) (options : Option QueryOptions) : List Obj :=
  match options with
  | none => rows
  | some opts =>
    let result := match opts.whereFn with
      | some p => rows.filter p
      | none => rows
    let result := match opts.orderBy with
      | none => result
      | some ob =>
        let selector : Obj → Value := match ob with
          | .column name => fun row => Obj.get row name
          | .selector f => f
        let sorted := sortBy (fun a b => !(vgt (selector a) (selector b))) result
        if opts.order == some "desc" then sorted.reverse else sorted
    let offset := (opts.offset).getD 0
    let limit := (opts.limit).getD result.length
    jsSlice result offset (offset + limit)

/-- Modelled from the spec (§4.3 Query Evaluator), for comparison with the
source-derived `applyQueryOptions`: retain rows passing `where`; if
`orderBy` is present sort stably, reversing on `order = 'desc'`; then
apply `offset` (default 0) and then `limit` (default = length) by
dropping `offset` rows and taking at most `limit` rows. -/
def querySpec (rows : List Obj) (opts : QueryOptions) : List Obj :=
  let filtered := match opts.whereFn with
    | some p => rows.filter p
    | none => rows
  let ordered := match opts.orderBy with
    | none => filtered
    | some ob =>
      let selector : Obj → Value := match ob with
        | .column name => fun row => Obj.get row name
        | .selector f => f
      let sorted := sortBy (fun a b => !(vgt (selector a) (selector b))) filtered
      if opts.order == some "desc" then sorted.reverse else sorted
  ((ordered.drop ((opts.offset).getD 0)).take ((opts.limit).getD ordered.length))

/-! ## Memory adapter state and effect monad -/

/-- One memory store: `Map<IDBValidKey, row>` in insertion order. -/
abbrev Store : Type := List (Value × Obj)

/-- The mutable state of a `MemoryAdapter`: `this.stores` and
`this.sequences`. Sequence counters are naturals: they start absent
(read as 0) and are only ever overwritten with `current + 1`. -/
structure MemState where
  stores : List (String × Store)
  sequences : List (String × Nat)
deriving DecidableEq, Repr

/-- The effect of an adapter method body: it may throw (carrying the JS
error message) and it reads and writes the adapter state. As with real JS
exceptions over mutable state, the state reached before a throw is kept. -/
def M (α : Type) : Type := MemState → (Except String α) × MemState

def M.pure {α : Type} (a : α) : M α := fun s => (Except.ok a, s)

def M.bind {α β : Type} (x : M α) (f : α → M β) : M β := fun s =>
  match x s with
  | (Except.ok a, s2) => f a s2
  | (Except.error e, s2) => (Except.error e, s2)

instance : Monad M where
  pure := M.pure
  bind := M.bind

/-- `throw new Error(msg)`. -/
def M.throw {α : Type} (msg : String) : M α := fun s => (Except.error msg, s)

/-- Read the adapter state. -/
def M.get : M MemState := fun s => (Except.ok s, s)

/-- Lift a synchronously-throwing helper (such as `primaryKeyColumn`). -/
def M.lift {α : Type} (x : Except String α) : M α := fun s => (x, s)

theorem M.bind_apply {α β : Type} (x : M α) (f : α → M β) (s : MemState) :
    (x >>= f) s =
      match x s with
      | (Except.ok a, s2) => f a s2
      | (Except.error e, s2) => (Except.error e, s2) := rfl

theorem M.pure_apply {α : Type} (a : α) (s : MemState) :
    (Pure.pure (f := M) a) s = (Except.ok a, s) := rfl

end Mistfall

namespace Mistfall

/-! ## Normalization pipeline and memory adapter operations -/

/-- `NormalizationContext`: the per-backend identity allocator and
foreign-key existence check supplied to the pipeline. -/
structure NormalizationContext where
  allocateIdentity : Table → Column → M Value
  ensureForeignKey : Table → Column → Table → Column → Value → M Unit

/-- `this.getStore(table)` of the memory adapter. The source's non-null
assertion (`!`) is embedded as reading a missing store as empty; the
adapter constructor creates a store for every schema table, so the two
agree on every reachable state. -/
def getStoreM (schema : Schema) (table : Table) : M Store := fun s =>
  (Except.ok ((listGet? s.stores (storeName schema table)).getD []), s)

/-- In-place mutation of one store object held in `this.stores`. -/
def modifyStoreM (schema : Schema) (table : Table) (f : Store → Store) : M Unit := fun s =>
  (Except.ok (),
    ⟨mapSet s.stores (storeName schema table)
        (f ((listGet? s.stores (storeName schema table)).getD [])),
      s.sequences⟩)

/-- `MemoryAdapter.makeContext()`: identities come from the in-memory
`sequences` counter (`(current ?? 0) + 1`, written back); the foreign-key
check is a no-op for `undefined`/`null` and otherwise requires the target
store to contain the value as a primary key. -/
def MemoryAdapter.makeContext (schema : Schema) : NormalizationContext where
  allocateIdentity := fun table _ => fun s =>
    let name := storeName schema table
    let current := (listGet? s.sequences name).getD 0
    let next := current + 1
    (Except.ok (Value.int (Int.ofNat next)), ⟨s.stores, mapSet s.sequences name next⟩)
  ensureForeignKey := fun sourceTable sourceColumn targetTable targetColumn value =>
    if value = Value.undef ∨ value = Value.null then M.pure ()
    else fun s =>
      let store := (listGet? s.stores (storeName schema targetTable)).getD []
      if listHas store value then (Except.ok (), s)
      else
        (Except.error ("Foreign key violation: " ++ sourceTable.name ++ "." ++
            sourceColumn.name ++ " ➜ " ++ targetTable.name ++ "." ++ targetColumn.name), s)

/-- The body of the `for (const column of Object.values(table.columns))`
loop in `ensureForeignKeys`: skip columns without foreign-key metadata or
with an absent/null value, silently skip unresolvable targets, and
otherwise delegate to the context. -/
def ensureForeignKeyColumn (schema : Schema) (table : Table) (row : Obj)
    (ctx : NormalizationContext) (column : Column) : M Unit :=
  match column.foreignKey with
  | none => M.pure ()
  | some fk =>
    let value := Obj.get row column.name
    if value = Value.undef ∨ value = Value.null then M.pure ()
    else
      match listGet? schema.tables fk.tableName with
      | none => M.pure ()
      | some targetTable =>
        match getColumn? targetTable fk.columnName with
        | none => M.pure ()
        | some targetColumn =>
          ctx.ensureForeignKey table column targetTable targetColumn value

def ensureForeignKeysAux (schema : Schema) (table : Table) (row : Obj)
    (ctx : NormalizationContext) : List Column → M Unit
  | [] => M.pure ()
  | column :: rest => do
    ensureForeignKeyColumn schema table row ctx column
    ensureForeignKeysAux schema table row ctx rest

/-- `ensureForeignKeys(table, row, ctx)`. The source reads the
`table.schema` back-pointer and returns immediately when it is unset;
that pointer is the explicit `schemaOpt` argument here. -/
def ensureForeignKeys (schemaOpt : Option Schema) (table : Table) (row : Obj)
    (ctx : NormalizationContext) : M Unit :=
  match schemaOpt with
  | none => M.pure ()
  | some schema => ensureForeignKeysAux schema table row ctx table.columns

/-- The value-resolution half of the column loop in `normalizeInsertRow`:
for an `undefined` value, identity allocation first, then the default
producer, then (a clone of) the literal default; anything else unchanged. -/
def resolveInsertValue (table : Table) (ctx : NormalizationContext)
    (row : Obj) (column : Column) : M Value :=
  let value0 := Obj.get row column.name
  if value0 = Value.undef then
    if column.constraints.identity then
      ctx.allocateIdentity table column
    else
      match column.defaultFn with
      | some f => M.pure (f ())
      | none =>
        match column.defaultValue with
        | some dv => M.pure dv
        | none => M.pure value0
  else M.pure value0

/-- One iteration of the column loop in `normalizeInsertRow`: resolve the
value, enforce not-null (`undefined` or `null` both reject), and write the
resolved value onto the row. -/
def normalizeInsertColumn (table : Table) (ctx : NormalizationContext)
    (row : Obj) (column : Column) : M Obj := do
  let value ← resolveInsertValue table ctx row column
  if (value = Value.undef ∨ value = Value.null) ∧ column.constraints.notNull then
    M.throw ("Column " ++ table.name ++ "." ++ column.name ++ " is not nullable")
  else
    M.pure (Obj.set row column.name value)

def normalizeInsertColumns (table : Table) (ctx : NormalizationContext) :
    List Column → Obj → M Obj
  | [], row => M.pure row
  | column :: rest, row => do
    let row2 ← normalizeInsertColumn table ctx row column
    normalizeInsertColumns table ctx rest row2

/-- `normalizeInsertRow(table, input, ctx)`. -/
def normalizeInsertRow (schemaOpt : Option Schema) (table : Table) (input : Obj)
    (ctx : NormalizationContext) : M Obj := do
  let row ← normalizeInsertColumns table ctx table.columns input
  ensureForeignKeys schemaOpt table row ctx
  M.pure row

/-- One iteration of the column loop in `normalizeUpdateRow`: the onUpdate
producer runs on the column's pre-update value exactly when the patch does
not literally contain the key; the not-null re-check rejects only
`undefined` (unlike the insert path, `null` passes). -/
def normalizeUpdateColumn (table : Table) (existing patch : Obj)
    (row : Obj) (column : Column) : M Obj := do
  let userProvided := Obj.hasOwn patch column.name
  let value0 := Obj.get row column.name
  let value :=
    if !userProvided then
      match column.onUpdateFn with
      | some f => f (Obj.get existing column.name)
      | none => value0
    else value0
  if value = Value.undef ∧ column.constraints.notNull then
    M.throw ("Column " ++ table.name ++ "." ++ column.name ++ " is not nullable")
  else
    M.pure (Obj.set row column.name value)

def normalizeUpdateColumns (table : Table) (existing patch : Obj) :
    List Column → Obj → M Obj
  | [], row => M.pure row
  | column :: rest, row => do
    let row2 ← normalizeUpdateColumn table existing patch row column
    normalizeUpdateColumns table existing patch rest row2

/-- `normalizeUpdateRow(table, existing, patch, ctx)`: start from the
spread `{...existing, ...patch}`, run the column loop, then re-check
foreign keys on the merged row. -/
def normalizeUpdateRow (schemaOpt : Option Schema) (table : Table)
    (existing patch : Obj) (ctx : NormalizationContext) : M Obj := do
  let row ← normalizeUpdateColumns table existing patch table.columns (Obj.merge existing patch)
  ensureForeignKeys schemaOpt table row ctx
  M.pure row

/-- `applyComputedFields(table, row)`: materialize each computed index
expression onto the row. -/
def applyComputedFields (table : Table) (row : Obj) : Obj :=
  table.indexes.foldl (fun r idx =>
    match idx.computed with
    | some c => Obj.set r c.field (c.expression r)
    | none => r) row

/-- The scan of one dependent store in `assertRestrictDeleteMemory`. -/
def restrictScan (ref : ForeignReference) (key : Value) : List (Value × Obj) → M Unit
  | [] => M.pure ()
  | (_, row) :: rest =>
    if Obj.get row ref.column.name = key then
      M.throw ("Delete restricted by " ++ ref.table.name ++ "." ++ ref.column.name)
    else restrictScan ref key rest

def assertRestrictDeleteMemoryAux (key : Value) (schema : Schema) :
    List ForeignReference → M Unit
  | [] => M.pure ()
  | ref :: rest => do
    let s ← M.get
    match listGet? s.stores (storeName schema ref.table) with
    | none => assertRestrictDeleteMemoryAux key schema rest
    | some store => do
      restrictScan ref key store
      assertRestrictDeleteMemoryAux key schema rest

/-- `assertRestrictDeleteMemory(dependents, key, schema, stores)`: for each
reverse dependency, scan the dependent store (skipping a missing store)
and throw on the first row whose foreign-key column equals `key`. -/
def assertRestrictDeleteMemory (dependents : List ForeignReference) (key : Value)
    (schema : Schema) : M Unit :=
  assertRestrictDeleteMemoryAux key schema dependents

end Mistfall

namespace Mistfall

/-- One iteration of the insert loop of `MemoryAdapter.insertRows`:
normalize, apply computed fields, reject a primary-key collision, and
commit the row. -/
def insertOne (schema : Schema) (table : Table) (ctx : NormalizationContext)
    (value : Obj) : M Obj := do
  let normalized ← normalizeInsertRow (some schema) table value ctx
  let normalized := applyComputedFields table normalized
  let pkCol ← M.lift (primaryKeyColumn table)
  let key := Obj.get normalized pkCol.name
  let store ← getStoreM schema table
  if listHas store key then
    M.throw ("Primary key violation on " ++ table.name ++ "." ++ pkCol.name)
  else do
    modifyStoreM schema table (fun st => mapSet st key normalized)
    M.pure normalized

def insertRowsAux (schema : Schema) (table : Table) (ctx : NormalizationContext) :
    List Obj → List Obj → M (List Obj)
  | [], results => M.pure results
  | value :: rest, results => do
    let normalized ← insertOne schema table ctx value
    insertRowsAux schema table ctx rest (results ++ [normalized])

/-- `MemoryAdapter.insertRows(table, values)` for an array argument (a
single-object call is the singleton-list case). Rows are normalized and
committed one at a time in array order. -/
def insertRows (schema : Schema) (table : Table) (values : List Obj) : M (List Obj) :=
  insertRowsAux schema table (MemoryAdapter.makeContext schema) values []

/-- `MemoryAdapter.selectRows(table, options)`: clone the store's rows in
insertion order and evaluate the query options over them. -/
def selectRows (schema : Schema) (table : Table) (options : Option QueryOptions) :
    M (List Obj) := do
  let store ← getStoreM schema table
  M.pure (applyQueryOptions (store.map (fun p => p.2)) options)

/-- The update loop of `MemoryAdapter.updateRows`, iterating the store
entries captured at entry (the loop only overwrites the entry it is
visiting, so live-`Map` iteration visits exactly these entries with these
row values). -/
def updateRowsAux (schema : Schema) (table : Table) (whereFn : Obj → Bool)
    (patch : Obj) (ctx : NormalizationContext) : List (Value × Obj) → Nat → M Nat
  | [], updated => M.pure updated
  | (key, row) :: rest, updated =>
    if !(whereFn row) then updateRowsAux schema table whereFn patch ctx rest updated
    else do
      let nextRow ← normalizeUpdateRow (some schema) table row patch ctx
      let nextRow := applyComputedFields table nextRow
      modifyStoreM schema table (fun st => mapSet st key nextRow)
      updateRowsAux schema table whereFn patch ctx rest (updated + 1)

/-- `MemoryAdapter.updateRows(table, where, patch)`. -/
def updateRows (schema : Schema) (table : Table) (whereFn : Obj → Bool)
    (patch : Obj) : M Nat := do
  let store ← getStoreM schema table
  updateRowsAux schema table whereFn patch (MemoryAdapter.makeContext schema) store 0

/-- The delete loop of `MemoryAdapter.deleteRows`, iterating the store
entries captured at entry (the loop only deletes the entry it is
visiting). Each matching candidate is checked against every reverse
dependency before its removal. -/
def deleteRowsAux (schema : Schema) (table : Table) (whereFn : Obj → Bool)
    (dependents : List ForeignReference) : List (Value × Obj) → Nat → M Nat
  | [], deleted => M.pure deleted
  | (key, row) :: rest, deleted =>
    if !(whereFn row) then deleteRowsAux schema table whereFn dependents rest deleted
    else do
      let pkCol ← M.lift (primaryKeyColumn table)
      assertRestrictDeleteMemory dependents (Obj.get row pkCol.name) schema
      modifyStoreM schema table (fun st => mapDelete st key)
      deleteRowsAux schema table whereFn dependents rest (deleted + 1)

/-- `MemoryAdapter.deleteRows(table, where)`. -/
def deleteRows (schema : Schema) (table : Table) (whereFn : Obj → Bool) : M Nat := do
  let store ← getStoreM schema table
  deleteRowsAux schema table whereFn
    ((listGet? (buildReferenceMap schema) table.name).getD []) store 0

/-- `MemoryAdapter.transaction(tables, fn)`: snapshot every store and the
whole sequence map, run `fn` with a session over the same adapter state
(the session's verbs are `insertRows`/`selectRows`/`updateRows`/
`deleteRows`, so `fn` here is an arbitrary program in `M`), and on a
throw write every snapshotted store back (`Map.set` per store name),
rebuild `sequences` from the snapshot, and rethrow. The `tables` argument
is not consulted. -/
def MemoryAdapter.transaction {α : Type} (tables : List Table) (fn : M α) : M α :=
  fun s =>
    let storeSnapshots := s.stores
    let seqSnapshot := s.sequences
    match fn s with
    | (Except.ok result, s2) => (Except.ok result, s2)
    | (Except.error e, s2) =>
        (Except.error e,
          ⟨storeSnapshots.foldl (fun st p => mapSet st p.1 p.2) s2.stores, seqSnapshot⟩)

/-- The guard at the top of `IDBAdapter.transaction`, executed before any
store set is collected and before the session callback can run:
`if (!tables.length) throw new Error('transaction() requires at least one
table')`. -/
def IDBAdapter.transactionGuard (tables : List Table) : Except String Unit :=
  if tables.length = 0 then
    Except.error "transaction() requires at least one table"
  else Except.ok ()

end Mistfall

namespace Mistfall

/-! ## Concrete fixtures (the spec's `users`/`todos` scenario schema) -/

/-- Constraint flags of `t.int().primaryKey().identity()`. -/
def pkIdentityFlags : Constraints := ⟨true, true, false, true, true⟩

/-- Constraint flags of a `.notNull()` column. -/
def notNullFlags : Constraints := ⟨true, false, false, false, false⟩

/-- Constraint flags of an unconstrained column. -/
def plainFlags : Constraints := ⟨false, false, false, false, false⟩

def usersTable : Table :=
  ⟨"users",
    [⟨"id", pkIdentityFlags, none, none, none, none⟩,
     ⟨"name", notNullFlags, none, none, none, none⟩],
    []⟩

def todosTable : Table :=
  ⟨"todos",
    [⟨"id", pkIdentityFlags, none, none, none, none⟩,
     ⟨"title", notNullFlags, none, none, none, none⟩,
     ⟨"ownerId", notNullFlags, none, none, none, some ⟨"users", "id", "restrict"⟩⟩],
    []⟩

def demoSchema : Schema :=
  ⟨"demo", 1, "demo", [("users", usersTable), ("todos", todosTable)]⟩

/-- The adapter state right after `new MemoryAdapter(demoSchema)`: one
empty store per table, no sequence counters. -/
def demoState : MemState :=
  ⟨[("demo__users", []), ("demo__todos", [])], []⟩

/-- The spec's scenario-5 column: `updatedAt` with `$defaultFn = () => 100`
and `$onUpdate = prev => prev + 1`. -/
def updatedAtColumn : Column :=
  ⟨"updatedAt", plainFlags, none, some (fun _ => Value.int 100),
    some (fun prev => match prev with | Value.int n => Value.int (n + 1) | v => v), none⟩

def docsTable : Table :=
  ⟨"docs",
    [⟨"id", pkIdentityFlags, none, none, none, none⟩,
     ⟨"name", notNullFlags, none, none, none, none⟩,
     updatedAtColumn],
    []⟩

def docsSchema : Schema := ⟨"docs", 1, "docs", [("docs", docsTable)]⟩

def docsState : MemState := ⟨[("docs__docs", [])], []⟩

/-- The spec's scenario-6 row set: `{id: 1..5, v: id % 3}`. -/
def queryRow (i : Int) : Obj := [("id", Value.int i), ("v", Value.int (i % 3))]

def queryRows : List Obj := [queryRow 1, queryRow 2, queryRow 3, queryRow 4, queryRow 5]

/-- The spec's scenario-6 options:
`{where: v === 1, orderBy: 'id', order: 'desc', limit: 1, offset: 1}`. -/
def queryOpts : QueryOptions :=
  ⟨some (fun r => decide (Obj.get r "v" = Value.int 1)),
    some (OrderBy.column "id"), some "desc", some 1, some 1⟩

end Mistfall

namespace Mistfall

/-! ## Derived observations used by the statements -/

/-- The current value of a table's sequence counter (`sequences.get(name)
?? 0`). -/
def seqGet (s : MemState) (name : String) : Nat :=
  (listGet? s.sequences name).getD 0

/-- The foreign-key condition `ensureForeignKeys` enforces for one column
against one state: vacuous without foreign-key metadata or with an
unresolvable target (the source silently skips those), satisfied when the
row's value is `undefined`/`null`, and otherwise requiring the target
store to contain the value as a key. -/
def fkSatisfied (schema : Schema) (s : MemState) (row : Obj) (column : Column) : Bool :=
  match column.foreignKey with
  | none => true
  | some fk =>
    let value := Obj.get row column.name
    if value = Value.undef ∨ value = Value.null then true
    else
      match listGet? schema.tables fk.tableName with
      | none => true
      | some targetTable =>
        match getColumn? targetTable fk.columnName with
        | none => true
        | some _ =>
          listHas ((listGet? s.stores (storeName schema targetTable)).getD []) value

/-- Whether one reverse dependency blocks deleting the row keyed `key`:
some row of the dependent store (a missing store blocks nothing) has
`key` in the dependency's foreign-key column. -/
def restrictHit (schema : Schema) (s : MemState) (key : Value) (ref : ForeignReference) : Bool :=
  match listGet? s.stores (storeName schema ref.table) with
  | none => false
  | some store => store.any (fun p => decide (Obj.get p.2 ref.column.name = key))

/-- A top-level client call against the memory adapter (outside an
explicit transaction session). -/
inductive ClientOp where
  | opInsert (table : Table) (values : List Obj)
  | opSelect (table : Table) (options : Option QueryOptions)
  | opUpdate (table : Table) (whereFn : Obj → Bool) (patch : Obj)
  | opDelete (table : Table) (whereFn : Obj → Bool)

/-- The state reached after a client call, whether it resolves or rejects
(a rejected top-level call keeps whatever state it reached). -/
def runOp (schema : Schema) : ClientOp → MemState → MemState
  | ClientOp.opInsert t vs, s => (insertRows schema t vs s).2
  | ClientOp.opSelect t o, s => (selectRows schema t o s).2
  | ClientOp.opUpdate t w p, s => (updateRows schema t w p s).2
  | ClientOp.opDelete t w, s => (deleteRows schema t w s).2

def runOps (schema : Schema) : List ClientOp → MemState → MemState
  | [], s => s
  | op :: rest, s => runOps schema rest (runOp schema op s)

/-- The demo state after inserting one user `{name:'x'}` (identity `id=1`
allocated). -/
def userState1 : MemState :=
  ⟨[("demo__users", [(Value.int 1, [("name", Value.str "x"), ("id", Value.int 1)])]),
    ("demo__todos", [])],
    [("demo__users", 1)]⟩

/-- `userState1` plus one todo `{title:'t', ownerId:1}` referencing the
user. -/
def userTodoState : MemState :=
  ⟨[("demo__users", [(Value.int 1, [("name", Value.str "x"), ("id", Value.int 1)])]),
    ("demo__todos",
      [(Value.int 1,
        [("title", Value.str "t"), ("ownerId", Value.int 1), ("id", Value.int 1)])])],
    [("demo__users", 1), ("demo__todos", 1)]⟩

/-! ## Association-list lemmas -/

theorem listGet?_mapSet_self {κ α : Type} [DecidableEq κ] (m : List (κ × α)) (k : κ) (v : α) :
    listGet? (mapSet m k v) k = some v := by
  induction m with
  | nil => simp [mapSet, listGet?]
  | cons p rest ih =>
    by_cases h : p.1 = k
    · simp [mapSet, h, listGet?]
    · simp [mapSet, h, listGet?, ih]

theorem listGet?_mapSet_ne {κ α : Type} [DecidableEq κ] (m : List (κ × α)) (k k' : κ) (v : α)
    (h : k' ≠ k) : listGet? (mapSet m k v) k' = listGet? m k' := by
  induction m with
  | nil =>
    simp only [mapSet, listGet?]
    rw [if_neg (fun h2 => h h2.symm)]
  | cons p rest ih =>
    by_cases hp : p.1 = k
    · subst hp
      simp only [mapSet, if_pos rfl, listGet?]
      rw [if_neg (fun h2 : p.1 = k' => h h2.symm), if_neg (fun h2 : p.1 = k' => h h2.symm)]
    · simp only [mapSet, if_neg hp, listGet?]
      by_cases hp' : p.1 = k'
      · rw [if_pos hp', if_pos hp']
      · rw [if_neg hp', if_neg hp', ih]

theorem listHas_mapSet_mono {κ α : Type} [DecidableEq κ] (m : List (κ × α)) (k k2 : κ) (v : α)
    (h : listHas m k = true) : listHas (mapSet m k2 v) k = true := by
  unfold listHas at *
  by_cases hk : k = k2
  · subst hk; simp [listGet?_mapSet_self]
  · rw [listGet?_mapSet_ne m k2 k v hk]; exact h

theorem mapSet_cons_ne {κ α : Type} [DecidableEq κ] (k : κ) (v : α) (st : List (κ × α))
    (k2 : κ) (v2 : α) (h : k ≠ k2) :
    mapSet ((k, v) :: st) k2 v2 = (k, v) :: mapSet st k2 v2 := by
  simp [mapSet, h]

theorem foldl_mapSet_cons_of_not_mem {κ α : Type} [DecidableEq κ] (k : κ) (v : α)
    (entries : List (κ × α)) (st : List (κ × α)) (h : ∀ p ∈ entries, p.1 ≠ k) :
    entries.foldl (fun acc p => mapSet acc p.1 p.2) ((k, v) :: st) =
      (k, v) :: entries.foldl (fun acc p => mapSet acc p.1 p.2) st := by
  induction entries generalizing st with
  | nil => rfl
  | cons p rest ih =>
    have hp : p.1 ≠ k := h p (List.mem_cons_self p rest)
    simp only [List.foldl_cons]
    rw [mapSet_cons_ne k v st p.1 p.2 (fun h2 => hp h2.symm)]
    exact ih _ (fun q hq => h q (List.mem_cons_of_mem p hq))

/-- Re-playing every snapshot entry with `Map.set` into a current map that
has the same key list restores the snapshot exactly. -/
theorem foldl_mapSet_restore {κ α : Type} [DecidableEq κ] :
    ∀ (snap cur : List (κ × α)), cur.map Prod.fst = snap.map Prod.fst →
      (snap.map Prod.fst).Nodup →
      snap.foldl (fun acc p => mapSet acc p.1 p.2) cur = snap := by
  intro snap
  induction snap with
  | nil =>
    intro cur hkeys _
    have : cur = [] := by
      cases cur with
      | nil => rfl
      | cons q l => simp at hkeys
    simp [this]
  | cons p tl ih =>
    intro cur hkeys hnodup
    cases cur with
    | nil => simp at hkeys
    | cons q l =>
      simp only [List.map_cons, List.cons.injEq] at hkeys
      obtain ⟨hq, hl⟩ := hkeys
      simp only [List.map_cons, List.nodup_cons] at hnodup
      obtain ⟨hpk, hnd⟩ := hnodup
      simp only [List.foldl_cons]
      have hset : mapSet (q :: l) p.1 p.2 = (p.1, p.2) :: l := by
        simp [mapSet, hq]
      rw [hset]
      rw [foldl_mapSet_cons_of_not_mem p.1 p.2 tl l
        (fun r hr h2 => hpk (h2 ▸ List.mem_map_of_mem Prod.fst hr))]
      rw [ih l hl hnd]

end Mistfall

namespace Mistfall

/-! ## Claim theorems -/

/-- C1: For the memory backend, `transaction(tables, fn)` with any session
function `fn` (any program over the adapter state whose store key set it
preserves, as every session verb does): if `fn` throws, the call rethrows
`fn`'s original error and the final state — every store's row map and
every sequence counter — equals the state at the moment `transaction` was
called; if `fn` resolves, the call returns `fn`'s result. -/
theorem memory_transaction_rollback {α : Type} (tables : List Table) (fn : M α) (s : MemState)
    (hkeys : ((fn s).2).stores.map Prod.fst = s.stores.map Prod.fst)
    (hnodup : (s.stores.map Prod.fst).Nodup) :
    (∀ e, (fn s).1 = Except.error e →
        MemoryAdapter.transaction tables fn s = (Except.error e, s)) ∧
    (∀ a, (fn s).1 = Except.ok a →
        MemoryAdapter.transaction tables fn s = (Except.ok a, (fn s).2)) := by
  have hdef : MemoryAdapter.transaction tables fn s =
      (match fn s with
        | (Except.ok result, s2) => (Except.ok result, s2)
        | (Except.error e, s2) =>
            (Except.error e,
              ⟨s.stores.foldl (fun st p => mapSet st p.1 p.2) s2.stores, s.sequences⟩)) := rfl
  rcases hfs : fn s with ⟨r, s2⟩
  rw [hfs] at hdef hkeys
  have hrestore : s.stores.foldl (fun st p => mapSet st p.1 p.2) s2.stores = s.stores :=
    foldl_mapSet_restore s.stores s2.stores hkeys hnodup
  constructor
  · intro e he
    have he2 : r = Except.error e := he
    subst he2
    rw [hdef]
    show (Except.error e,
      (⟨s.stores.foldl (fun st p => mapSet st p.1 p.2) s2.stores, s.sequences⟩ : MemState)) =
      (Except.error e, s)
    rw [hrestore]
  · intro a ha
    have ha2 : r = Except.ok a := ha
    subst ha2
    rw [hdef]

/-- Witness for C1: inside a transaction on the fresh demo adapter, insert
a user and then throw `"boom"`; the call rejects with `"boom"` and the
state is exactly the pre-transaction state. -/
theorem memory_transaction_rollback_witness :
    MemoryAdapter.transaction [usersTable]
      (M.bind (insertRows demoSchema usersTable [[("name", Value.str "y")]])
        (fun _ => (M.throw "boom" : M (List Obj))))
      demoState = (Except.error "boom", demoState) :=
  (memory_transaction_rollback [usersTable]
    (M.bind (insertRows demoSchema usersTable [[("name", Value.str "y")]])
      (fun _ => (M.throw "boom" : M (List Obj))))
    demoState (by rfl) (by decide)).1 "boom" (by rfl)

/-- C8 counterexample: the builder accepts a table with two primary-key
columns (the construction-time check only rejects a table with none). -/
theorem tableBuild_two_primary_keys_accepted :
    (tableBuild "pair"
      [⟨"a", ⟨true, true, false, false, false⟩, none, none, none, none⟩,
       ⟨"b", ⟨true, true, false, false, false⟩, none, none, none, none⟩] []).isOk = true ∧
    ([⟨"a", ⟨true, true, false, false, false⟩, none, none, none, none⟩,
      ⟨"b", ⟨true, true, false, false, false⟩, none, none, none, none⟩] : List Column).countP
        (fun c => c.constraints.primaryKey) = 2 :=
  ⟨rfl, rfl⟩

/-- C8 (amended): table construction fails with a schema error exactly
when no declared column carries the primary-key flag; a table with one
or more primary-key columns is accepted. -/
theorem tableBuild_primary_key_check (name : String) (columns : List Column)
    (indexes : List IndexDef) :
    ((∃ tbl, tableBuild name columns indexes = Except.ok tbl) ↔
      columns.any (fun col => col.constraints.primaryKey) = true) ∧
    (columns.any (fun col => col.constraints.primaryKey) = false →
      tableBuild name columns indexes =
        Except.error ("Table " ++ name ++ " must declare a primary key column.")) := by
  constructor
  · constructor
    · rintro ⟨tbl, htbl⟩
      by_contra hne
      have hfalse : columns.any (fun col => col.constraints.primaryKey) = false := by
        revert hne
        cases columns.any (fun col => col.constraints.primaryKey) <;> simp
      unfold tableBuild at htbl
      rw [hfalse] at htbl
      simp at htbl
    · intro h
      refine ⟨⟨name, columns, indexes⟩, ?_⟩
      unfold tableBuild
      rw [h]
      rfl
  · intro hfalse
    unfold tableBuild
    rw [hfalse]
    rfl

/-- Witness for C8 (amended): the `users` fixture constructs, and a
primary-key-less table is rejected with the schema error. -/
theorem tableBuild_primary_key_check_witness :
    (∃ tbl, tableBuild "users" usersTable.columns [] = Except.ok tbl) ∧
    tableBuild "nopk" [⟨"a", plainFlags, none, none, none, none⟩] [] =
      Except.error "Table nopk must declare a primary key column." :=
  ⟨(tableBuild_primary_key_check "users" usersTable.columns []).1.mpr rfl,
   (tableBuild_primary_key_check "nopk" [⟨"a", plainFlags, none, none, none, none⟩] []).2 rfl⟩

/-- C9 counterexample: on the memory backend, `transaction` with an empty
table list does not fail — it runs the session function and resolves with
its result. -/
theorem memory_transaction_empty_tables_not_rejected :
    MemoryAdapter.transaction ([] : List Table) (M.pure (42 : Nat)) demoState =
      (Except.ok 42, demoState) := rfl

/-- C9 (amended): only the persistent backend rejects an empty table
list — its `transaction` guard fails immediately (before any store is
collected or the session callback runs) exactly when the list is empty;
the memory backend performs no such check and simply runs the session
function. -/
theorem transaction_empty_tables_check :
    (IDBAdapter.transactionGuard [] =
      Except.error "transaction() requires at least one table") ∧
    (∀ tables : List Table, tables ≠ [] → IDBAdapter.transactionGuard tables = Except.ok ()) ∧
    (∀ (α : Type) (fn : M α) (s : MemState) (a : α) (s2 : MemState),
      fn s = (Except.ok a, s2) →
      MemoryAdapter.transaction ([] : List Table) fn s = (Except.ok a, s2)) := by
  refine ⟨rfl, ?_, ?_⟩
  · intro tables h
    unfold IDBAdapter.transactionGuard
    rw [if_neg (fun h2 => h (List.length_eq_zero.mp h2))]
  · intro α fn s a s2 hfs
    unfold MemoryAdapter.transaction
    rw [hfs]

/-- Witness for C9 (amended). -/
theorem transaction_empty_tables_check_witness :
    IDBAdapter.transactionGuard [usersTable] = Except.ok () ∧
    MemoryAdapter.transaction ([] : List Table) (M.pure (7 : Nat)) demoState =
      (Except.ok 7, demoState) :=
  ⟨transaction_empty_tables_check.2.1 [usersTable] (List.cons_ne_nil _ _),
   transaction_empty_tables_check.2.2 Nat (M.pure 7) demoState 7 demoState rfl⟩

/-- C3: the code contradicts the claimed invariant. `users.name` is a
not-null column, yet updating the committed row `{id:1, name:'x'}` with
the patch `{name: null}` resolves with 1 row updated and commits `null`
into `name`: the update path's not-null re-check tests only `undefined`
and lets an explicit `null` through. -/
theorem updateRows_commits_null_into_not_null_column :
    (getColumn? usersTable "name").map (fun c => c.constraints.notNull) = some true ∧
    (updateRows demoSchema usersTable (fun _ => true) [("name", Value.null)] userState1).1 =
      Except.ok 1 ∧
    ((listGet? ((updateRows demoSchema usersTable (fun _ => true)
        [("name", Value.null)] userState1).2).stores "demo__users").getD []).map
      (fun p => Obj.get p.2 "name") = [Value.null] :=
  ⟨rfl, rfl, rfl⟩

end Mistfall

namespace Mistfall

/-! ## Sort lemmas for the query evaluator -/

theorem vgt_ne (a b : Value) (h : vgt a b = true) : a ≠ b := by
  intro heq
  subst heq
  cases a with
  | undef => simp [vgt] at h
  | null => simp [vgt] at h
  | int n => simp [vgt] at h
  | str s => simp [vgt] at h
  | bool b => simp [vgt] at h

theorem filter_sortInsertBy_pos {α : Type} (le : α → α → Bool) (p : α → Bool) (a : α)
    (l : List α) (ha : p a = true) (hskip : ∀ b, le a b = false → p b = false) :
    (sortInsertBy le a l).filter p = a :: l.filter p := by
  induction l with
  | nil => simp [sortInsertBy, ha]
  | cons b l ih =>
    by_cases hle : le a b = true
    · simp [sortInsertBy, hle, ha]
    · have hle2 : le a b = false := by revert hle; cases le a b <;> simp
      have hpb : p b = false := hskip b hle2
      simp only [sortInsertBy, hle2, Bool.false_eq_true, if_false, List.filter_cons, hpb]
      rw [ih]

theorem filter_sortInsertBy_neg {α : Type} (le : α → α → Bool) (p : α → Bool) (a : α)
    (l : List α) (ha : p a = false) :
    (sortInsertBy le a l).filter p = l.filter p := by
  induction l with
  | nil => simp [sortInsertBy, ha]
  | cons b l ih =>
    by_cases hle : le a b = true
    · simp [sortInsertBy, hle, ha]
    · have hle2 : le a b = false := by revert hle; cases le a b <;> simp
      simp only [sortInsertBy, hle2, Bool.false_eq_true, if_false, List.filter_cons]
      rw [ih]

/-- Stability of the embedded sort: the rows whose sort key equals any
fixed key appear in the sorted output exactly as they appear in the
input. -/
theorem filter_sortBy {α : Type} (le : α → α → Bool) (p : α → Bool)
    (hskip : ∀ a b, p a = true → le a b = false → p b = false) :
    ∀ l : List α, (sortBy le l).filter p = l.filter p := by
  intro l
  induction l with
  | nil => rfl
  | cons a l ih =>
    by_cases hpa : p a = true
    · rw [sortBy, filter_sortInsertBy_pos le p a (sortBy le l) hpa
        (fun b hle => hskip a b hpa hle), ih]
      simp [List.filter_cons, hpa]
    · have hpa2 : p a = false := by revert hpa; cases p a <;> simp
      rw [sortBy, filter_sortInsertBy_neg le p a (sortBy le l) hpa2, ih]
      simp [List.filter_cons, hpa2]

/-- C6: the query evaluator applies `where`, then the stable sort with
`desc` reversal, then `offset` (default 0) and `limit` (default: all
remaining) — equal to the spec-worded pipeline `querySpec`; absent options
return the rows unchanged; the sort is stable (rows with equal keys keep
their input order); and on the spec's concrete scenario (rows
`{id:1..5, v:id%3}`, `where v=1`, `orderBy id`, `desc`, `offset 1`,
`limit 1`) it returns exactly the row with `id = 1`. -/
theorem applyQueryOptions_spec :
    (∀ rows : List Obj, applyQueryOptions rows none = rows) ∧
    (∀ (rows : List Obj) (opts : QueryOptions),
      applyQueryOptions rows (some opts) = querySpec rows opts) ∧
    (∀ (sel : Obj → Value) (l : List Obj) (k : Value),
      (sortBy (fun a b => !(vgt (sel a) (sel b))) l).filter (fun r => decide (sel r = k)) =
        l.filter (fun r => decide (sel r = k))) ∧
    applyQueryOptions queryRows (some queryOpts) = [queryRow 1] := by
  refine ⟨fun rows => rfl, ?_, ?_, ?_⟩
  · intro rows opts
    unfold applyQueryOptions querySpec jsSlice
    simp only [Nat.add_sub_cancel_left]
  · intro sel l k
    refine filter_sortBy _ _ ?_ l
    intro a b hpa hle
    have hgt : vgt (sel a) (sel b) = true := by
      revert hle
      cases vgt (sel a) (sel b) <;> simp
    have hne : sel a ≠ sel b := vgt_ne _ _ hgt
    have hak : sel a = k := of_decide_eq_true hpa
    refine decide_eq_false (fun hbk => hne ?_)
    rw [hak, hbk]
  · rfl

end Mistfall

namespace Mistfall

/-! ## State lemmas for the memory context and the pipeline -/

theorem seqGet_mapSet_self (stores : List (String × Store)) (seqs : List (String × Nat))
    (n : String) (v : Nat) :
    seqGet ⟨stores, mapSet seqs n v⟩ n = v := by
  unfold seqGet
  simp [listGet?_mapSet_self]

theorem seqGet_mapSet_le (stores : List (String × Store)) (seqs : List (String × Nat))
    (n n' : String) (v : Nat) (hv : (listGet? seqs n).getD 0 ≤ v) :
    seqGet ⟨stores, seqs⟩ n' ≤ seqGet ⟨stores, mapSet seqs n v⟩ n' := by
  by_cases h : n' = n
  · subst h
    unfold seqGet
    simp only
    rw [listGet?_mapSet_self]
    exact hv
  · unfold seqGet
    simp only
    rw [listGet?_mapSet_ne seqs n n' v h]

theorem seqGet_stores_irrel (stores stores' : List (String × Store))
    (seqs : List (String × Nat)) (n : String) :
    seqGet ⟨stores, seqs⟩ n = seqGet ⟨stores', seqs⟩ n := rfl

/-- `allocateIdentity` of the memory context: returns `current + 1` and
writes it back; stores untouched. -/
theorem allocateIdentity_apply (schema : Schema) (table : Table) (c : Column) (s : MemState) :
    (MemoryAdapter.makeContext schema).allocateIdentity table c s =
      (Except.ok (Value.int (Int.ofNat (seqGet s (storeName schema table) + 1))),
        ⟨s.stores,
          mapSet s.sequences (storeName schema table) (seqGet s (storeName schema table) + 1)⟩) :=
  rfl

/-- The memory context's foreign-key check never changes the state. -/
theorem makeContext_ensureForeignKey_state (schema : Schema) (st tt : Table) (c tc : Column)
    (v : Value) (s : MemState) :
    (((MemoryAdapter.makeContext schema).ensureForeignKey st c tt tc v) s).2 = s := by
  simp only [MemoryAdapter.makeContext]
  by_cases h : v = Value.undef ∨ v = Value.null
  · simp [h, M.pure]
  · simp only [h, if_false]
    by_cases h2 : listHas ((listGet? s.stores (storeName schema tt)).getD []) v = true
    · simp [h2]
    · have h3 : listHas ((listGet? s.stores (storeName schema tt)).getD []) v = false := by
        revert h2
        cases listHas ((listGet? s.stores (storeName schema tt)).getD []) v <;> simp
      simp [h3]

end Mistfall

namespace Mistfall

theorem makeContext_ensureForeignKey_ok_iff (schema : Schema) (st tt : Table) (c tc : Column)
    (v : Value) (s : MemState) :
    (((MemoryAdapter.makeContext schema).ensureForeignKey st c tt tc v) s).1 = Except.ok () ↔
      (v = Value.undef ∨ v = Value.null ∨
        listHas ((listGet? s.stores (storeName schema tt)).getD []) v = true) := by
  simp only [MemoryAdapter.makeContext]
  by_cases h : v = Value.undef ∨ v = Value.null
  · simp [h, M.pure]
    tauto
  · simp only [h, if_false]
    by_cases h2 : listHas ((listGet? s.stores (storeName schema tt)).getD []) v = true
    · simp [h2]
    · have h3 : listHas ((listGet? s.stores (storeName schema tt)).getD []) v = false := by
        revert h2
        cases listHas ((listGet? s.stores (storeName schema tt)).getD []) v <;> simp
      simp [h3]
      tauto

theorem makeContext_ensureForeignKey_error (schema : Schema) (st tt : Table) (c tc : Column)
    (v : Value) (s : MemState)
    (h : ¬(v = Value.undef ∨ v = Value.null))
    (hmiss : listHas ((listGet? s.stores (storeName schema tt)).getD []) v = false) :
    ((MemoryAdapter.makeContext schema).ensureForeignKey st c tt tc v) s =
      (Except.error ("Foreign key violation: " ++ st.name ++ "." ++ c.name ++ " ➜ " ++
        tt.name ++ "." ++ tc.name), s) := by
  simp only [MemoryAdapter.makeContext]
  simp [h, hmiss]

theorem ensureForeignKeyColumn_state (schema : Schema) (table : Table) (row : Obj)
    (c : Column) (s : MemState) :
    ((ensureForeignKeyColumn schema table row (MemoryAdapter.makeContext schema) c) s).2 = s := by
  unfold ensureForeignKeyColumn
  cases hfk : c.foreignKey with
  | none => rfl
  | some fk =>
    by_cases hv : Obj.get row c.name = Value.undef ∨ Obj.get row c.name = Value.null
    · simp [hv, M.pure]
    · simp only [hv, if_false]
      cases htt : listGet? schema.tables fk.tableName with
      | none => rfl
      | some tt =>
        show ((match getColumn? tt fk.columnName with
          | none => M.pure ()
          | some targetColumn =>
              (MemoryAdapter.makeContext schema).ensureForeignKey table c tt targetColumn
                (Obj.get row c.name)) s).2 = s
        cases htc : getColumn? tt fk.columnName with
        | none => rfl
        | some tc => exact makeContext_ensureForeignKey_state schema table tt c tc _ s

theorem ensureForeignKeyColumn_ok_iff (schema : Schema) (table : Table) (row : Obj)
    (c : Column) (s : MemState) :
    ((ensureForeignKeyColumn schema table row (MemoryAdapter.makeContext schema) c) s).1 =
        Except.ok () ↔
      fkSatisfied schema s row c = true := by
  unfold ensureForeignKeyColumn fkSatisfied
  cases hfk : c.foreignKey with
  | none => simp [M.pure]
  | some fk =>
    by_cases hv : Obj.get row c.name = Value.undef ∨ Obj.get row c.name = Value.null
    · simp [hv, M.pure]
    · simp only [hv, if_false]
      cases htt : listGet? schema.tables fk.tableName with
      | none => simp [M.pure]
      | some tt =>
        show ((match getColumn? tt fk.columnName with
          | none => M.pure ()
          | some targetColumn =>
              (MemoryAdapter.makeContext schema).ensureForeignKey table c tt targetColumn
                (Obj.get row c.name)) s).1 = Except.ok () ↔
          (match getColumn? tt fk.columnName with
            | none => true
            | some _ =>
                listHas ((listGet? s.stores (storeName schema tt)).getD [])
                  (Obj.get row c.name)) = true
        cases htc : getColumn? tt fk.columnName with
        | none => simp [M.pure]
        | some tc =>
          rw [makeContext_ensureForeignKey_ok_iff schema table tt c tc _ s]
          rw [not_or] at hv
          simp [hv.1, hv.2]

theorem ensureForeignKeyColumn_error (schema : Schema) (table : Table) (row : Obj)
    (c : Column) (s : MemState) (fk : ForeignKey) (tt : Table) (tc : Column)
    (hfk : c.foreignKey = some fk)
    (htt : listGet? schema.tables fk.tableName = some tt)
    (htc : getColumn? tt fk.columnName = some tc)
    (hv : ¬(Obj.get row c.name = Value.undef ∨ Obj.get row c.name = Value.null))
    (hmiss : listHas ((listGet? s.stores (storeName schema tt)).getD [])
      (Obj.get row c.name) = false) :
    (ensureForeignKeyColumn schema table row (MemoryAdapter.makeContext schema) c) s =
      (Except.error ("Foreign key violation: " ++ table.name ++ "." ++ c.name ++ " ➜ " ++
        tt.name ++ "." ++ tc.name), s) := by
  unfold ensureForeignKeyColumn
  rw [hfk]
  simp only [hv, if_false, htt, htc]
  exact makeContext_ensureForeignKey_error schema table tt c tc _ s hv hmiss

end Mistfall

namespace Mistfall

theorem ensureForeignKeysAux_state (schema : Schema) (table : Table) (row : Obj) :
    ∀ (cols : List Column) (s : MemState),
    ((ensureForeignKeysAux schema table row (MemoryAdapter.makeContext schema) cols) s).2 = s := by
  intro cols
  induction cols with
  | nil => intro s; rfl
  | cons c rest ih =>
    intro s
    show ((ensureForeignKeyColumn schema table row (MemoryAdapter.makeContext schema) c >>=
      fun _ => ensureForeignKeysAux schema table row (MemoryAdapter.makeContext schema) rest) s).2 = s
    rw [M.bind_apply]
    rcases hx : (ensureForeignKeyColumn schema table row (MemoryAdapter.makeContext schema) c) s
      with ⟨r, s2⟩
    have hs2 : s2 = s := by
      have := ensureForeignKeyColumn_state schema table row c s
      rw [hx] at this
      exact this
    rw [hs2]
    cases r with
    | ok a => exact ih s
    | error e => rfl

theorem ensureForeignKeysAux_ok_iff (schema : Schema) (table : Table) (row : Obj) :
    ∀ (cols : List Column) (s : MemState),
    ((ensureForeignKeysAux schema table row (MemoryAdapter.makeContext schema) cols) s).1 =
        Except.ok () ↔
      ∀ c ∈ cols, fkSatisfied schema s row c = true := by
  intro cols
  induction cols with
  | nil => intro s; simp [ensureForeignKeysAux, M.pure]
  | cons c rest ih =>
    intro s
    show ((ensureForeignKeyColumn schema table row (MemoryAdapter.makeContext schema) c >>=
      fun _ => ensureForeignKeysAux schema table row (MemoryAdapter.makeContext schema) rest) s).1 =
        Except.ok () ↔ _
    rw [M.bind_apply]
    rcases hx : (ensureForeignKeyColumn schema table row (MemoryAdapter.makeContext schema) c) s
      with ⟨r, s2⟩
    have hs2 : s2 = s := by
      have := ensureForeignKeyColumn_state schema table row c s
      rw [hx] at this
      exact this
    rw [hs2] at hx ⊢
    have hcol := ensureForeignKeyColumn_ok_iff schema table row c s
    rw [hx] at hcol
    cases r with
    | ok a =>
      have hctrue : fkSatisfied schema s row c = true := hcol.mp rfl
      simp only [List.mem_cons]
      constructor
      · intro h1 c' hc'
        rcases hc' with hc' | hc'
        · subst hc'; exact hctrue
        · exact ((ih s).mp h1) c' hc'
      · intro h1
        exact (ih s).mpr (fun c' hc' => h1 c' (Or.inr hc'))
    | error e =>
      simp only
      constructor
      · intro h1; cases h1
      · intro h1
        have : fkSatisfied schema s row c = true := h1 c (List.mem_cons_self c rest)
        have hfalse : ((Except.error e : Except String Unit) = Except.ok ()) := hcol.mpr this
        cases hfalse

theorem ensureForeignKeysAux_error (schema : Schema) (table : Table) (row : Obj)
    (c : Column) (post : List Column) (e : String) :
    ∀ (pre : List Column) (s : MemState),
    (∀ c' ∈ pre, fkSatisfied schema s row c' = true) →
    (ensureForeignKeyColumn schema table row (MemoryAdapter.makeContext schema) c) s =
      (Except.error e, s) →
    (ensureForeignKeysAux schema table row (MemoryAdapter.makeContext schema)
      (pre ++ c :: post)) s = (Except.error e, s) := by
  intro pre
  induction pre with
  | nil =>
    intro s _ hc
    show ((ensureForeignKeyColumn schema table row (MemoryAdapter.makeContext schema) c >>=
      fun _ => ensureForeignKeysAux schema table row (MemoryAdapter.makeContext schema) post) s) =
      (Except.error e, s)
    rw [M.bind_apply, hc]
  | cons c0 rest ih =>
    intro s hpre hc
    show ((ensureForeignKeyColumn schema table row (MemoryAdapter.makeContext schema) c0 >>=
      fun _ => ensureForeignKeysAux schema table row (MemoryAdapter.makeContext schema)
        (rest ++ c :: post)) s) = (Except.error e, s)
    rw [M.bind_apply]
    rcases hx : (ensureForeignKeyColumn schema table row (MemoryAdapter.makeContext schema) c0) s
      with ⟨r, s2⟩
    have hs2 : s2 = s := by
      have := ensureForeignKeyColumn_state schema table row c0 s
      rw [hx] at this
      exact this
    rw [hs2] at hx ⊢
    have hcol := ensureForeignKeyColumn_ok_iff schema table row c0 s
    rw [hx] at hcol
    have hc0 : fkSatisfied schema s row c0 = true := hpre c0 (List.mem_cons_self c0 rest)
    have hok : r = Except.ok () := by
      cases r with
      | ok a => rfl
      | error e2 =>
        have : ((Except.error e2 : Except String Unit) = Except.ok ()) := hcol.mpr hc0
        cases this
    subst hok
    exact ih s (fun c' hc' => hpre c' (List.mem_cons_of_mem c0 hc')) hc

/-- `ensureForeignKeys` with the memory context: reads only. -/
theorem ensureForeignKeys_state (schema : Schema) (table : Table) (row : Obj) (s : MemState) :
    ((ensureForeignKeys (some schema) table row (MemoryAdapter.makeContext schema)) s).2 = s :=
  ensureForeignKeysAux_state schema table row table.columns s

theorem ensureForeignKeys_ok_iff (schema : Schema) (table : Table) (row : Obj) (s : MemState) :
    ((ensureForeignKeys (some schema) table row (MemoryAdapter.makeContext schema)) s).1 =
        Except.ok () ↔
      ∀ c ∈ table.columns, fkSatisfied schema s row c = true :=
  ensureForeignKeysAux_ok_iff schema table row table.columns s

end Mistfall

namespace Mistfall

/-! ## Insert-path state lemmas -/

theorem resolveInsertValue_state (schema : Schema) (table : Table) (row : Obj)
    (c : Column) (s : MemState) :
    ((resolveInsertValue table (MemoryAdapter.makeContext schema) row c) s).2.stores = s.stores ∧
    ∀ n, seqGet s n ≤ seqGet ((resolveInsertValue table (MemoryAdapter.makeContext schema) row c) s).2 n := by
  unfold resolveInsertValue
  by_cases h0 : Obj.get row c.name = Value.undef
  · simp only [h0, if_true]
    by_cases hid : c.constraints.identity = true
    · rw [hid]
      simp only [if_true]
      rw [allocateIdentity_apply]
      refine ⟨rfl, ?_⟩
      intro n
      exact seqGet_mapSet_le s.stores s.sequences (storeName schema table) n _ (Nat.le_succ _)
    · have hid2 : c.constraints.identity = false := by
        revert hid; cases c.constraints.identity <;> simp
      rw [hid2]
      simp only [Bool.false_eq_true, if_false]
      cases c.defaultFn with
      | some f => exact ⟨rfl, fun n => Nat.le_refl _⟩
      | none =>
        cases c.defaultValue with
        | some dv => exact ⟨rfl, fun n => Nat.le_refl _⟩
        | none => exact ⟨rfl, fun n => Nat.le_refl _⟩
  · simp only [h0, if_false]
    exact ⟨rfl, fun n => Nat.le_refl _⟩

theorem normalizeInsertColumn_state (schema : Schema) (table : Table) (row : Obj)
    (c : Column) (s : MemState) :
    ((normalizeInsertColumn table (MemoryAdapter.makeContext schema) row c) s).2.stores = s.stores ∧
    ∀ n, seqGet s n ≤ seqGet ((normalizeInsertColumn table (MemoryAdapter.makeContext schema) row c) s).2 n := by
  unfold normalizeInsertColumn
  rw [M.bind_apply]
  rcases hx : (resolveInsertValue table (MemoryAdapter.makeContext schema) row c) s with ⟨r, s2⟩
  have hres := resolveInsertValue_state schema table row c s
  rw [hx] at hres
  cases r with
  | ok v =>
    by_cases hnn : (v = Value.undef ∨ v = Value.null) ∧ c.constraints.notNull = true
    · simp only [hnn, if_true]
      exact hres
    · simp only [hnn, if_false]
      exact hres
  | error e => exact hres

theorem normalizeInsertColumns_state (schema : Schema) (table : Table) :
    ∀ (cols : List Column) (row : Obj) (s : MemState),
    ((normalizeInsertColumns table (MemoryAdapter.makeContext schema) cols row) s).2.stores =
      s.stores ∧
    ∀ n, seqGet s n ≤
      seqGet ((normalizeInsertColumns table (MemoryAdapter.makeContext schema) cols row) s).2 n := by
  intro cols
  induction cols with
  | nil => exact fun row s => ⟨rfl, fun n => Nat.le_refl _⟩
  | cons c rest ih =>
    intro row s
    rw [normalizeInsertColumns, M.bind_apply]
    rcases hx : (normalizeInsertColumn table (MemoryAdapter.makeContext schema) row c) s
      with ⟨r, s2⟩
    have hcol := normalizeInsertColumn_state schema table row c s
    rw [hx] at hcol
    cases r with
    | ok row2 =>
      have hrest := ih row2 s2
      exact ⟨hrest.1.trans hcol.1,
        fun n => (hcol.2 n).trans (hrest.2 n)⟩
    | error e => exact hcol

/-- `normalizeInsertRow` with the memory context: never touches the
stores, never decreases a sequence counter. -/
theorem normalizeInsertRow_state (schema : Schema) (table : Table) (input : Obj) (s : MemState) :
    ((normalizeInsertRow (some schema) table input (MemoryAdapter.makeContext schema)) s).2.stores =
      s.stores ∧
    ∀ n, seqGet s n ≤
      seqGet ((normalizeInsertRow (some schema) table input (MemoryAdapter.makeContext schema)) s).2 n := by
  rw [normalizeInsertRow, M.bind_apply]
  rcases hx : (normalizeInsertColumns table (MemoryAdapter.makeContext schema) table.columns input) s
    with ⟨r, s2⟩
  have hcols := normalizeInsertColumns_state schema table table.columns input s
  rw [hx] at hcols
  cases r with
  | ok row =>
    show ((ensureForeignKeys (some schema) table row (MemoryAdapter.makeContext schema) >>=
        fun _ => M.pure row) s2).2.stores = s.stores ∧
      ∀ n, seqGet s n ≤ seqGet ((ensureForeignKeys (some schema) table row
        (MemoryAdapter.makeContext schema) >>= fun _ => M.pure row) s2).2 n
    rw [M.bind_apply]
    rcases hy : (ensureForeignKeys (some schema) table row (MemoryAdapter.makeContext schema)) s2
      with ⟨r2, s3⟩
    have hs3 : s3 = s2 := by
      have := ensureForeignKeys_state schema table row s2
      rw [hy] at this
      exact this
    rw [hs3]
    cases r2 with
    | ok u => exact hcols
    | error e => exact hcols
  | error e => exact hcols

end Mistfall

namespace Mistfall

theorem getStoreM_apply (schema : Schema) (table : Table) (s : MemState) :
    (getStoreM schema table) s =
      (Except.ok ((listGet? s.stores (storeName schema table)).getD []), s) := rfl

theorem modifyStoreM_apply (schema : Schema) (table : Table) (f : Store → Store) (s : MemState) :
    (modifyStoreM schema table f) s =
      (Except.ok (),
        ⟨mapSet s.stores (storeName schema table)
          (f ((listGet? s.stores (storeName schema table)).getD [])), s.sequences⟩) := rfl


theorem M.bind_apply_ok {α β : Type} (x : M α) (f : α → M β) (s : MemState) (a : α)
    (s2 : MemState) (h : x s = (Except.ok a, s2)) : (x >>= f) s = f a s2 := by
  rw [M.bind_apply, h]

theorem M.bind_apply_error {α β : Type} (x : M α) (f : α → M β) (s : MemState) (e : String)
    (s2 : MemState) (h : x s = (Except.error e, s2)) : (x >>= f) s = (Except.error e, s2) := by
  rw [M.bind_apply, h]

theorem M.lift_bind_ok {α β : Type} (x : Except String α) (f : α → M β) (s : MemState) (a : α)
    (h : x = Except.ok a) : ((M.lift x : M α) >>= f) s = f a s := by
  rw [M.bind_apply]
  rw [show (M.lift x : M α) s = (x, s) from rfl, h]

theorem M.lift_bind_error {α β : Type} (x : Except String α) (f : α → M β) (s : MemState)
    (e : String) (h : x = Except.error e) :
    ((M.lift x : M α) >>= f) s = (Except.error e, s) := by
  rw [M.bind_apply]
  rw [show (M.lift x : M α) s = (x, s) from rfl, h]

theorem M.throw_apply {α : Type} (msg : String) (s : MemState) :
    (M.throw msg : M α) s = (Except.error msg, s) := rfl

theorem M.pure_def {α : Type} (a : α) (s : MemState) :
    (M.pure a : M α) s = (Except.ok a, s) := rfl

theorem getStoreM_bind {β : Type} (schema : Schema) (table : Table) (f : Store → M β)
    (s : MemState) :
    (getStoreM schema table >>= f) s =
      f ((listGet? s.stores (storeName schema table)).getD []) s := by
  rw [M.bind_apply, getStoreM_apply]

theorem modifyStoreM_bind {β : Type} (schema : Schema) (table : Table) (g : Store → Store)
    (f : Unit → M β) (s : MemState) :
    (modifyStoreM schema table g >>= f) s =
      f () ⟨mapSet s.stores (storeName schema table)
        (g ((listGet? s.stores (storeName schema table)).getD [])), s.sequences⟩ := by
  rw [M.bind_apply, modifyStoreM_apply]

end Mistfall

namespace Mistfall

/-- One insert iteration: sequence counters never decrease, existing store
bindings survive (also on failure), and on success the committed row is
bound in the table's store under its primary-key value. -/
theorem insertOne_spec (schema : Schema) (table : Table) (v : Obj) (s : MemState) :
    (∀ n, seqGet s n ≤ seqGet ((insertOne schema table (MemoryAdapter.makeContext schema) v) s).2 n) ∧
    (∀ nm k r0, listGet? ((listGet? s.stores nm).getD []) k = some r0 →
       listGet? ((listGet?
         ((insertOne schema table (MemoryAdapter.makeContext schema) v) s).2.stores nm).getD [])
         k = some r0) ∧
    (∀ r s', (insertOne schema table (MemoryAdapter.makeContext schema) v) s = (Except.ok r, s') →
       ∀ pkCol, primaryKeyColumn table = Except.ok pkCol →
       listGet? ((listGet? s'.stores (storeName schema table)).getD [])
         (Obj.get r pkCol.name) = some r) := by
  rw [insertOne]
  rcases hx : (normalizeInsertRow (some schema) table v (MemoryAdapter.makeContext schema)) s
    with ⟨r0, s1⟩
  have hnorm := normalizeInsertRow_state schema table v s
  rw [hx] at hnorm
  have hstores1 : s1.stores = s.stores := hnorm.1
  have hseq1 : ∀ n, seqGet s n ≤ seqGet s1 n := hnorm.2
  cases r0 with
  | error e =>
    rw [M.bind_apply_error _ _ s e s1 hx]
    refine ⟨hseq1, ?_, ?_⟩
    · intro nm k rr h
      show listGet? ((listGet? s1.stores nm).getD []) k = some rr
      rw [hstores1]
      exact h
    · intro r s' habs
      cases habs
  | ok normalized0 =>
    rw [M.bind_apply_ok _ _ s normalized0 s1 hx]
    cases hpk : primaryKeyColumn table with
    | error e =>
      rw [M.lift_bind_error (Except.error e) _ s1 e rfl]
      refine ⟨hseq1, ?_, ?_⟩
      · intro nm k rr h
        show listGet? ((listGet? s1.stores nm).getD []) k = some rr
        rw [hstores1]
        exact h
      · intro r s' habs
        cases habs
    | ok pkCol =>
      rw [M.lift_bind_ok (Except.ok pkCol) _ s1 pkCol rfl]
      rw [getStoreM_bind]
      by_cases hguard : listHas ((listGet? s1.stores (storeName schema table)).getD [])
          (Obj.get (applyComputedFields table normalized0) pkCol.name) = true
      · rw [if_pos hguard, M.throw_apply]
        refine ⟨hseq1, ?_, ?_⟩
        · intro nm k rr h
          show listGet? ((listGet? s1.stores nm).getD []) k = some rr
          rw [hstores1]
          exact h
        · intro r s' habs
          cases habs
      · rw [if_neg hguard, modifyStoreM_bind, M.pure_def]
        have hguard2 : listHas ((listGet? s1.stores (storeName schema table)).getD [])
            (Obj.get (applyComputedFields table normalized0) pkCol.name) = false := by
          revert hguard
          cases listHas ((listGet? s1.stores (storeName schema table)).getD [])
            (Obj.get (applyComputedFields table normalized0) pkCol.name) <;> simp
        refine ⟨hseq1, ?_, ?_⟩
        · intro nm k rr h
          show listGet? ((listGet? (mapSet s1.stores (storeName schema table)
              (mapSet ((listGet? s1.stores (storeName schema table)).getD [])
                (Obj.get (applyComputedFields table normalized0) pkCol.name)
                (applyComputedFields table normalized0))) nm).getD []) k = some rr
          by_cases hnm : nm = storeName schema table
          · subst hnm
            rw [listGet?_mapSet_self]
            simp only [Option.getD_some]
            have hk : k ≠ Obj.get (applyComputedFields table normalized0) pkCol.name := by
              intro hk
              rw [hstores1] at hguard2
              unfold listHas at hguard2
              rw [← hk, h] at hguard2
              cases hguard2
            rw [listGet?_mapSet_ne _ _ _ _ hk, hstores1]
            exact h
          · rw [listGet?_mapSet_ne _ _ _ _ hnm]
            show listGet? ((listGet? s1.stores nm).getD []) k = some rr
            rw [hstores1]
            exact h
        · intro r s' heq pkCol2 hpk2
          injection heq with h1 h2
          injection h1 with h1
          subst h1
          subst h2
          injection hpk2 with h3
          subst h3
          show listGet? ((listGet? (mapSet s1.stores (storeName schema table)
              (mapSet ((listGet? s1.stores (storeName schema table)).getD [])
                (Obj.get (applyComputedFields table normalized0) pkCol.name)
                (applyComputedFields table normalized0))) (storeName schema table)).getD [])
              (Obj.get (applyComputedFields table normalized0) pkCol.name) =
            some (applyComputedFields table normalized0)
          rw [listGet?_mapSet_self]
          simp only [Option.getD_some]
          rw [listGet?_mapSet_self]

end Mistfall

namespace Mistfall

/-! ## Update and delete path state lemmas -/

theorem normalizeUpdateColumn_state (table : Table) (existing patch row : Obj)
    (c : Column) (s : MemState) :
    ((normalizeUpdateColumn table existing patch row c) s).2 = s := by
  unfold normalizeUpdateColumn
  split <;> split <;> rfl

theorem normalizeUpdateColumns_state (table : Table) (existing patch : Obj) :
    ∀ (cols : List Column) (row : Obj) (s : MemState),
    ((normalizeUpdateColumns table existing patch cols row) s).2 = s := by
  intro cols
  induction cols with
  | nil => intro row s; rfl
  | cons c rest ih =>
    intro row s
    rw [normalizeUpdateColumns, M.bind_apply]
    rcases hx : (normalizeUpdateColumn table existing patch row c) s with ⟨r, s2⟩
    have hs2 : s2 = s := by
      have := normalizeUpdateColumn_state table existing patch row c s
      rw [hx] at this
      exact this
    cases r with
    | ok row2 =>
      rw [hs2]
      exact ih row2 s
    | error e =>
      simp only
      rw [hs2]

/-- `normalizeUpdateRow` with the memory context reads the state but never
changes it: in particular it never allocates an identity. -/
theorem normalizeUpdateRow_state (schema : Schema) (table : Table) (existing patch : Obj)
    (s : MemState) :
    ((normalizeUpdateRow (some schema) table existing patch
      (MemoryAdapter.makeContext schema)) s).2 = s := by
  rw [normalizeUpdateRow, M.bind_apply]
  rcases hx : (normalizeUpdateColumns table existing patch table.columns
      (Obj.merge existing patch)) s with ⟨r, s2⟩
  have hs2 : s2 = s := by
    have := normalizeUpdateColumns_state table existing patch table.columns
      (Obj.merge existing patch) s
    rw [hx] at this
    exact this
  cases r with
  | ok row =>
    show ((ensureForeignKeys (some schema) table row (MemoryAdapter.makeContext schema) >>=
      fun _ => M.pure row) s2).2 = s
    rw [M.bind_apply]
    rcases hy : (ensureForeignKeys (some schema) table row (MemoryAdapter.makeContext schema)) s2
      with ⟨r2, s3⟩
    have hs3 : s3 = s2 := by
      have := ensureForeignKeys_state schema table row s2
      rw [hy] at this
      exact this
    cases r2 with
    | ok u =>
      show (M.pure row s3).2 = s
      rw [M.pure_def]
      simp only
      rw [hs3, hs2]
    | error e =>
      show s3 = s
      rw [hs3, hs2]
  | error e =>
    show s2 = s
    rw [hs2]

/-- The update loop never touches the sequence counters. -/
theorem updateRowsAux_sequences (schema : Schema) (table : Table) (whereFn : Obj → Bool)
    (patch : Obj) :
    ∀ (entries : List (Value × Obj)) (acc : Nat) (s : MemState),
    ((updateRowsAux schema table whereFn patch (MemoryAdapter.makeContext schema) entries acc) s).2.sequences =
      s.sequences := by
  intro entries
  induction entries with
  | nil => intro acc s; rfl
  | cons p rest ih =>
    intro acc s
    rcases p with ⟨key, row⟩
    rw [updateRowsAux]
    by_cases hw : whereFn row = true
    · rw [hw]
      simp only [Bool.not_true, Bool.false_eq_true, if_false]
      rw [M.bind_apply]
      rcases hx : (normalizeUpdateRow (some schema) table row patch
          (MemoryAdapter.makeContext schema)) s with ⟨r, s2⟩
      have hs2 : s2 = s := by
        have := normalizeUpdateRow_state schema table row patch s
        rw [hx] at this
        exact this
      cases r with
      | ok nextRow =>
        show (((modifyStoreM schema table fun st =>
            mapSet st key (applyComputedFields table nextRow)) >>=
          fun _ => updateRowsAux schema table whereFn patch (MemoryAdapter.makeContext schema)
            rest (acc + 1)) s2).2.sequences = s.sequences
        rw [modifyStoreM_bind, ih]
        rw [hs2]
      | error e =>
        show s2.sequences = s.sequences
        rw [hs2]
    · have hw2 : whereFn row = false := by
        revert hw
        cases whereFn row <;> simp
      rw [hw2]
      simp only [Bool.not_false, if_true]
      exact ih acc s

theorem updateRows_sequences (schema : Schema) (table : Table) (whereFn : Obj → Bool)
    (patch : Obj) (s : MemState) :
    ((updateRows schema table whereFn patch) s).2.sequences = s.sequences := by
  rw [updateRows, getStoreM_bind]
  exact updateRowsAux_sequences schema table whereFn patch _ 0 s

theorem restrictScan_state (ref : ForeignReference) (key : Value) :
    ∀ (entries : List (Value × Obj)) (s : MemState),
    ((restrictScan ref key entries) s).2 = s := by
  intro entries
  induction entries with
  | nil => intro s; rfl
  | cons p rest ih =>
    intro s
    rcases p with ⟨k, row⟩
    rw [restrictScan]
    split
    · rfl
    · exact ih s

theorem assertRestrictDeleteMemoryAux_state (key : Value) (schema : Schema) :
    ∀ (dependents : List ForeignReference) (s : MemState),
    ((assertRestrictDeleteMemoryAux key schema dependents) s).2 = s := by
  intro dependents
  induction dependents with
  | nil => intro s; rfl
  | cons ref rest ih =>
    intro s
    rw [assertRestrictDeleteMemoryAux, M.bind_apply]
    rw [show (M.get) s = (Except.ok s, s) from rfl]
    show ((match listGet? s.stores (storeName schema ref.table) with
      | none => assertRestrictDeleteMemoryAux key schema rest
      | some store => restrictScan ref key store >>=
          fun _ => assertRestrictDeleteMemoryAux key schema rest) s).2 = s
    cases hst : listGet? s.stores (storeName schema ref.table) with
    | none => exact ih s
    | some store =>
      show ((restrictScan ref key store >>=
        fun _ => assertRestrictDeleteMemoryAux key schema rest) s).2 = s
      rw [M.bind_apply]
      rcases hx : (restrictScan ref key store) s with ⟨r, s2⟩
      have hs2 : s2 = s := by
        have := restrictScan_state ref key store s
        rw [hx] at this
        exact this
      cases r with
      | ok u =>
        rw [hs2]
        exact ih s
      | error e =>
        simp only
        rw [hs2]

/-- The delete loop never touches the sequence counters. -/
theorem deleteRowsAux_sequences (schema : Schema) (table : Table) (whereFn : Obj → Bool)
    (dependents : List ForeignReference) :
    ∀ (entries : List (Value × Obj)) (acc : Nat) (s : MemState),
    ((deleteRowsAux schema table whereFn dependents entries acc) s).2.sequences = s.sequences := by
  intro entries
  induction entries with
  | nil => intro acc s; rfl
  | cons p rest ih =>
    intro acc s
    rcases p with ⟨key, row⟩
    rw [deleteRowsAux]
    by_cases hw : whereFn row = true
    · rw [hw]
      simp only [Bool.not_true, Bool.false_eq_true, if_false]
      cases hpk : primaryKeyColumn table with
      | error e =>
        rw [M.lift_bind_error (Except.error e) _ s e rfl]
      | ok pkCol =>
        rw [M.lift_bind_ok (Except.ok pkCol) _ s pkCol rfl]
        rw [M.bind_apply]
        rcases hx : (assertRestrictDeleteMemory dependents (Obj.get row pkCol.name) schema) s
          with ⟨r, s2⟩
        have hs2 : s2 = s := by
          have := assertRestrictDeleteMemoryAux_state (Obj.get row pkCol.name) schema dependents s
          rw [show assertRestrictDeleteMemory dependents (Obj.get row pkCol.name) schema =
            assertRestrictDeleteMemoryAux (Obj.get row pkCol.name) schema dependents from rfl] at hx
          rw [hx] at this
          exact this
        cases r with
        | ok u =>
          show (((modifyStoreM schema table fun st => mapDelete st key) >>=
            fun _ => deleteRowsAux schema table whereFn dependents rest (acc + 1)) s2).2.sequences =
            s.sequences
          rw [modifyStoreM_bind, ih]
          rw [hs2]
        | error e =>
          show s2.sequences = s.sequences
          rw [hs2]
    · have hw2 : whereFn row = false := by
        revert hw
        cases whereFn row <;> simp
      rw [hw2]
      simp only [Bool.not_false, if_true]
      exact ih acc s

theorem deleteRows_sequences (schema : Schema) (table : Table) (whereFn : Obj → Bool)
    (s : MemState) :
    ((deleteRows schema table whereFn) s).2.sequences = s.sequences := by
  rw [deleteRows, getStoreM_bind]
  exact deleteRowsAux_sequences schema table whereFn _ _ 0 s

theorem selectRows_apply (schema : Schema) (table : Table) (options : Option QueryOptions)
    (s : MemState) :
    (selectRows schema table options) s =
      (Except.ok (applyQueryOptions
        (((listGet? s.stores (storeName schema table)).getD []).map (fun p => p.2)) options), s) := by
  rw [selectRows, getStoreM_bind, M.pure_def]

end Mistfall

namespace Mistfall

theorem listGet?_mem {κ α : Type} [DecidableEq κ] :
    ∀ (m : List (κ × α)) (k : κ) (v : α), listGet? m k = some v → (k, v) ∈ m := by
  intro m
  induction m with
  | nil => intro k v h; cases h
  | cons p rest ih =>
    intro k v h
    rw [listGet?] at h
    by_cases hp : p.1 = k
    · rw [if_pos hp] at h
      injection h with h
      subst h
      subst hp
      exact List.mem_cons_self _ _
    · rw [if_neg hp] at h
      exact List.mem_cons_of_mem p (ih k v h)

/-- The insert loop: sequence counters never decrease, existing bindings
survive any outcome, and every returned row not taken from the
accumulator is bound in the table's store of the final state. -/
theorem insertRowsAux_spec (schema : Schema) (table : Table) :
    ∀ (vs : List Obj) (acc : List Obj) (s : MemState),
    (∀ n, seqGet s n ≤
      seqGet ((insertRowsAux schema table (MemoryAdapter.makeContext schema) vs acc) s).2 n) ∧
    (∀ nm k r0, listGet? ((listGet? s.stores nm).getD []) k = some r0 →
       listGet? ((listGet?
         ((insertRowsAux schema table (MemoryAdapter.makeContext schema) vs acc) s).2.stores
           nm).getD []) k = some r0) ∧
    (∀ rs s', (insertRowsAux schema table (MemoryAdapter.makeContext schema) vs acc) s =
        (Except.ok rs, s') →
       ∀ pkCol, primaryKeyColumn table = Except.ok pkCol →
       ∀ r ∈ rs, r ∈ acc ∨
         listGet? ((listGet? s'.stores (storeName schema table)).getD [])
           (Obj.get r pkCol.name) = some r) := by
  intro vs
  induction vs with
  | nil =>
    intro acc s
    refine ⟨fun n => Nat.le_refl _, fun nm k r0 h => h, ?_⟩
    intro rs s' heq pkCol hpk r hr
    have heq2 : (Except.ok acc, s) = ((Except.ok rs, s') : (Except String (List Obj)) × MemState) := heq
    injection heq2 with h1 h2
    injection h1 with h1
    subst h1
    exact Or.inl hr
  | cons v rest ih =>
    intro acc s
    rw [insertRowsAux]
    rcases h1 : (insertOne schema table (MemoryAdapter.makeContext schema) v) s with ⟨r1, s1⟩
    have spec1 := insertOne_spec schema table v s
    rw [h1] at spec1
    cases r1 with
    | error e =>
      rw [M.bind_apply_error _ _ s e s1 h1]
      refine ⟨spec1.1, spec1.2.1, ?_⟩
      intro rs s' habs
      cases habs
    | ok nr =>
      rw [M.bind_apply_ok _ _ s nr s1 h1]
      have ihh := ih (acc ++ [nr]) s1
      refine ⟨fun n => (spec1.1 n).trans (ihh.1 n), fun nm k r0 h => ihh.2.1 nm k r0 (spec1.2.1 nm k r0 h), ?_⟩
      intro rs s' heq pkCol hpk r hr
      rcases ihh.2.2 rs s' heq pkCol hpk r hr with hmem | hbound
      · rcases List.mem_append.mp hmem with hacc | hnr
        · exact Or.inl hacc
        · have hrnr : r = nr := by
            cases hnr with
            | head => rfl
            | tail _ h => cases h
          subst hrnr
          have hbound1 := spec1.2.2 r s1 rfl pkCol hpk
          have hpres := ihh.2.1 (storeName schema table) (Obj.get r pkCol.name) r hbound1
          rw [heq] at hpres
          exact Or.inr hpres
      · exact Or.inr hbound

/-- Splitting an insert call at a successful prefix. -/
theorem insertRowsAux_append (schema : Schema) (table : Table) (vs2 : List Obj) :
    ∀ (vs1 : List Obj) (acc rs : List Obj) (s s1 : MemState),
    (insertRowsAux schema table (MemoryAdapter.makeContext schema) vs1 acc) s =
      (Except.ok rs, s1) →
    (insertRowsAux schema table (MemoryAdapter.makeContext schema) (vs1 ++ vs2) acc) s =
      (insertRowsAux schema table (MemoryAdapter.makeContext schema) vs2 rs) s1 := by
  intro vs1
  induction vs1 with
  | nil =>
    intro acc rs s s1 h
    have h2 : (Except.ok acc, s) = ((Except.ok rs, s1) : (Except String (List Obj)) × MemState) := h
    injection h2 with ha hb
    injection ha with ha
    subst ha
    subst hb
    rfl
  | cons v vs1 ih =>
    intro acc rs s s1 h
    rw [insertRowsAux] at h
    show (insertRowsAux schema table (MemoryAdapter.makeContext schema) (v :: (vs1 ++ vs2)) acc) s =
      (insertRowsAux schema table (MemoryAdapter.makeContext schema) vs2 rs) s1
    rw [insertRowsAux]
    rcases h1 : (insertOne schema table (MemoryAdapter.makeContext schema) v) s with ⟨r1, s0⟩
    rw [M.bind_apply, h1] at h
    rw [M.bind_apply, h1]
    cases r1 with
    | error e => cases h
    | ok nr => exact ih (acc ++ [nr]) rs s0 s1 h

/-- The accumulator only prefixes the results. -/
theorem insertRowsAux_shift (schema : Schema) (table : Table) :
    ∀ (vs : List Obj) (acc : List Obj) (s : MemState),
    (insertRowsAux schema table (MemoryAdapter.makeContext schema) vs acc) s =
      (match (insertRowsAux schema table (MemoryAdapter.makeContext schema) vs []) s with
        | (Except.ok rs, s') => (Except.ok (acc ++ rs), s')
        | (Except.error e, s') => (Except.error e, s')) := by
  intro vs
  induction vs with
  | nil =>
    intro acc s
    show ((Except.ok acc, s) : (Except String (List Obj)) × MemState) =
      (Except.ok (acc ++ []), s)
    rw [List.append_nil]
  | cons v rest ih =>
    intro acc s
    rw [insertRowsAux, insertRowsAux]
    rcases h1 : (insertOne schema table (MemoryAdapter.makeContext schema) v) s with ⟨r1, s1⟩
    rw [M.bind_apply, h1, M.bind_apply, h1]
    cases r1 with
    | error e => rfl
    | ok nr =>
      show (insertRowsAux schema table (MemoryAdapter.makeContext schema) rest (acc ++ [nr])) s1 =
        (match (insertRowsAux schema table (MemoryAdapter.makeContext schema) rest ([] ++ [nr])) s1 with
          | (Except.ok rs, s') => (Except.ok (acc ++ rs), s')
          | (Except.error e, s') => (Except.error e, s'))
      rw [ih (acc ++ [nr]) s1, ih ([] ++ [nr]) s1]
      rcases h2 : (insertRowsAux schema table (MemoryAdapter.makeContext schema) rest []) s1
        with ⟨r2, s2⟩
      cases r2 with
      | error e => rfl
      | ok rs2 =>
        show ((Except.ok (acc ++ [nr] ++ rs2), s2) : (Except String (List Obj)) × MemState) =
          (Except.ok (acc ++ ([] ++ [nr] ++ rs2)), s2)
        rw [List.nil_append, List.append_assoc]

theorem seqGet_congr (s s' : MemState) (h : s'.sequences = s.sequences) (n : String) :
    seqGet s' n = seqGet s n := by
  unfold seqGet
  rw [h]

/-- No top-level client call ever decreases a sequence counter. -/
theorem runOp_seq_mono (schema : Schema) (op : ClientOp) (s : MemState) (n : String) :
    seqGet s n ≤ seqGet (runOp schema op s) n := by
  cases op with
  | opInsert t vs =>
    exact (insertRowsAux_spec schema t vs [] s).1 n
  | opSelect t o =>
    show seqGet s n ≤ seqGet ((selectRows schema t o) s).2 n
    rw [selectRows_apply]
  | opUpdate t w p =>
    show seqGet s n ≤ seqGet ((updateRows schema t w p) s).2 n
    rw [seqGet_congr s _ (updateRows_sequences schema t w p s) n]
  | opDelete t w =>
    show seqGet s n ≤ seqGet ((deleteRows schema t w) s).2 n
    rw [seqGet_congr s _ (deleteRows_sequences schema t w s) n]

theorem runOps_seq_mono (schema : Schema) :
    ∀ (ops : List ClientOp) (s : MemState) (n : String),
    seqGet s n ≤ seqGet (runOps schema ops s) n := by
  intro ops
  induction ops with
  | nil => intro s n; exact Nat.le_refl _
  | cons op rest ih =>
    intro s n
    exact (runOp_seq_mono schema op s n).trans (ih (runOp schema op s) n)

end Mistfall

namespace Mistfall

/-- C10: in the memory backend an array insert commits row by row and is
not atomic. Given a successful prefix `vs1` (results `rs1`, state `s1`),
the whole call on `vs1 ++ vs2` behaves exactly as continuing with `vs2`
from `s1` (prefix results kept on success, error passed through with the
partial state on failure); if the continuation fails, every prefix row is
still committed under its primary key and visible to a subsequent
`select`; and the sequence counters never go back down (an identity
allocated while processing the failed row stays allocated). -/
theorem insert_array_not_atomic (schema : Schema) (table : Table) (vs1 vs2 : List Obj)
    (s : MemState) (rs1 : List Obj) (s1 : MemState)
    (h1 : (insertRows schema table vs1) s = (Except.ok rs1, s1)) :
    ((insertRows schema table (vs1 ++ vs2)) s =
      (match (insertRows schema table vs2) s1 with
        | (Except.ok rs2, s2) => (Except.ok (rs1 ++ rs2), s2)
        | (Except.error e, s2) => (Except.error e, s2))) ∧
    (∀ e s2, (insertRows schema table vs2) s1 = (Except.error e, s2) →
      ∀ pkCol, primaryKeyColumn table = Except.ok pkCol →
      ∀ r ∈ rs1,
        listGet? ((listGet? s2.stores (storeName schema table)).getD [])
          (Obj.get r pkCol.name) = some r ∧
        ∃ rows, (selectRows schema table none) s2 = (Except.ok rows, s2) ∧ r ∈ rows) ∧
    (∀ n, seqGet s1 n ≤ seqGet ((insertRows schema table vs2) s1).2 n) := by
  rw [insertRows] at h1
  refine ⟨?_, ?_, ?_⟩
  · rw [insertRows, insertRows]
    rw [insertRowsAux_append schema table vs2 vs1 [] rs1 s s1 h1]
    exact insertRowsAux_shift schema table vs2 rs1 s1
  · intro e s2 herr pkCol hpk r hr
    rw [insertRows] at herr
    have hbound1 : listGet? ((listGet? s1.stores (storeName schema table)).getD [])
        (Obj.get r pkCol.name) = some r := by
      rcases (insertRowsAux_spec schema table vs1 [] s).2.2 rs1 s1 h1 pkCol hpk r hr
        with hmem | hb
      · cases hmem
      · exact hb
    have hbound2 := (insertRowsAux_spec schema table vs2 [] s1).2.1
      (storeName schema table) (Obj.get r pkCol.name) r hbound1
    rw [herr] at hbound2
    refine ⟨hbound2, ?_⟩
    refine ⟨applyQueryOptions
      (((listGet? s2.stores (storeName schema table)).getD []).map (fun p => p.2)) none,
      selectRows_apply schema table none s2, ?_⟩
    show r ∈ ((listGet? s2.stores (storeName schema table)).getD []).map (fun p => p.2)
    have hmem := listGet?_mem _ _ _ hbound2
    exact List.mem_map.mpr ⟨(Obj.get r pkCol.name, r), hmem, rfl⟩
  · intro n
    exact (insertRowsAux_spec schema table vs2 [] s1).1 n

/-- Witness for C10: inserting `[{name:'a', id:7}, {name:null}]` on the
fresh demo adapter fails on the second row, yet the first row stays
committed and visible to `select`, with the failed row's identity
allocation left in the sequence map. -/
theorem insert_array_not_atomic_witness :
    ∃ rows,
      (selectRows demoSchema usersTable none)
        (⟨[("demo__users", [(Value.int 7, [("name", Value.str "a"), ("id", Value.int 7)])]),
           ("demo__todos", [])], [("demo__users", 1)]⟩ : MemState) =
        (Except.ok rows,
          ⟨[("demo__users", [(Value.int 7, [("name", Value.str "a"), ("id", Value.int 7)])]),
            ("demo__todos", [])], [("demo__users", 1)]⟩) ∧
      [("name", Value.str "a"), ("id", Value.int 7)] ∈ rows := by
  have h := insert_array_not_atomic demoSchema usersTable
    [[("name", Value.str "a"), ("id", Value.int 7)]] [[("name", Value.null)]] demoState
    [[("name", Value.str "a"), ("id", Value.int 7)]]
    ⟨[("demo__users", [(Value.int 7, [("name", Value.str "a"), ("id", Value.int 7)])]),
      ("demo__todos", [])], []⟩ (by rfl)
  exact h.2.1 "Column users.name is not nullable"
    ⟨[("demo__users", [(Value.int 7, [("name", Value.str "a"), ("id", Value.int 7)])]),
      ("demo__todos", [])], [("demo__users", 1)]⟩ (by rfl)
    ⟨"id", pkIdentityFlags, none, none, none, none⟩ (by rfl)
    [("name", Value.str "a"), ("id", Value.int 7)] (by simp)
    |>.2

end Mistfall

namespace Mistfall

/-! ## Object lemmas for the update pipeline -/

theorem Obj.get_set_self (o : Obj) (k : String) (v : Value) :
    Obj.get (Obj.set o k v) k = v := by
  unfold Obj.get Obj.set
  rw [listGet?_mapSet_self]
  rfl

theorem Obj.get_set_ne (o : Obj) (k k' : String) (v : Value) (h : k' ≠ k) :
    Obj.get (Obj.set o k v) k' = Obj.get o k' := by
  unfold Obj.get Obj.set
  rw [listGet?_mapSet_ne _ _ _ _ h]

theorem listGet?_eq_none_of_not_mem {κ α : Type} [DecidableEq κ] :
    ∀ (m : List (κ × α)) (k : κ), k ∉ m.map Prod.fst → listGet? m k = none := by
  intro m
  induction m with
  | nil => intro k _; rfl
  | cons p rest ih =>
    intro k h
    rw [List.map_cons, List.mem_cons] at h
    push_neg at h
    rw [listGet?, if_neg (fun h2 => h.1 h2.symm)]
    exact ih k h.2

theorem listGet?_merge (b : Obj) (hb : (b.map Prod.fst).Nodup) :
    ∀ (a : Obj) (k : String),
    listGet? (Obj.merge a b) k =
      (match listGet? b k with
        | some v => some v
        | none => listGet? a k) := by
  induction b with
  | nil => intro a k; rfl
  | cons p b' ih =>
    intro a k
    rw [List.map_cons, List.nodup_cons] at hb
    have hmerge : Obj.merge a (p :: b') = Obj.merge (mapSet a p.1 p.2) b' := rfl
    rw [hmerge, ih hb.2]
    by_cases hk : p.1 = k
    · subst hk
      have hb' : listGet? b' p.1 = none := listGet?_eq_none_of_not_mem b' p.1 hb.1
      rw [hb']
      show listGet? (mapSet a p.1 p.2) p.1 =
        (match listGet? (p :: b') p.1 with
          | some v => some v
          | none => listGet? a p.1)
      rw [listGet?_mapSet_self]
      rw [show listGet? (p :: b') p.1 = some p.2 by rw [listGet?, if_pos rfl]]
    · rw [show listGet? (p :: b') k = listGet? b' k by rw [listGet?, if_neg hk]]
      cases hgb : listGet? b' k with
      | some v => rfl
      | none =>
        show listGet? (mapSet a p.1 p.2) k = listGet? a k
        exact listGet?_mapSet_ne a p.1 k p.2 (fun h2 => hk h2.symm)

theorem Obj.get_merge_of_hasOwn (a b : Obj) (hb : (b.map Prod.fst).Nodup) (k : String)
    (h : Obj.hasOwn b k = true) : Obj.get (Obj.merge a b) k = Obj.get b k := by
  unfold Obj.get
  rw [listGet?_merge b hb a k]
  unfold Obj.hasOwn at h
  cases hgb : listGet? b k with
  | some v => rfl
  | none => rw [hgb] at h; cases h

theorem Obj.get_merge_of_not_hasOwn (a b : Obj) (hb : (b.map Prod.fst).Nodup) (k : String)
    (h : Obj.hasOwn b k = false) : Obj.get (Obj.merge a b) k = Obj.get a k := by
  unfold Obj.get
  rw [listGet?_merge b hb a k]
  unfold Obj.hasOwn at h
  cases hgb : listGet? b k with
  | some v => rw [hgb] at h; cases h
  | none => rfl

theorem normalizeUpdateColumn_ok (table : Table) (existing patch row : Obj) (c : Column)
    (s : MemState) (row2 : Obj) (s2 : MemState)
    (h : (normalizeUpdateColumn table existing patch row c) s = (Except.ok row2, s2)) :
    row2 = Obj.set row c.name
      (if !(Obj.hasOwn patch c.name) then
        (match c.onUpdateFn with
          | some f => f (Obj.get existing c.name)
          | none => Obj.get row c.name)
      else Obj.get row c.name) := by
  unfold normalizeUpdateColumn at h
  by_cases hown : Obj.hasOwn patch c.name = true
  · rw [hown] at h ⊢
    simp only [Bool.not_true, Bool.false_eq_true, if_false] at h ⊢
    split at h
    · cases h
    · have h2 : (M.pure (Obj.set row c.name (Obj.get row c.name)) : M Obj) s =
        ((Except.ok row2, s2) : (Except String Obj) × MemState) := h
      rw [M.pure_def] at h2
      injection h2 with ha hb
      injection ha with ha
      exact ha.symm
  · have hown2 : Obj.hasOwn patch c.name = false := by
      revert hown
      cases Obj.hasOwn patch c.name <;> simp
    rw [hown2] at h ⊢
    simp only [Bool.not_false, if_true] at h ⊢
    split at h
    · cases h
    · have h2 : (M.pure (Obj.set row c.name
        (match c.onUpdateFn with
          | some f => f (Obj.get existing c.name)
          | none => Obj.get row c.name)) : M Obj) s =
        ((Except.ok row2, s2) : (Except String Obj) × MemState) := h
      rw [M.pure_def] at h2
      injection h2 with ha hb
      injection ha with ha
      exact ha.symm

end Mistfall

namespace Mistfall

/-- Value-level characterization of the update column loop: each column's
final value follows the hook rule, and keys named by no column are left
alone. -/
theorem normalizeUpdateColumns_get (table : Table) (existing patch : Obj) :
    ∀ (cols : List Column) (row : Obj) (s : MemState) (row' : Obj) (s' : MemState),
    (cols.map (fun c => c.name)).Nodup →
    (normalizeUpdateColumns table existing patch cols row) s = (Except.ok row', s') →
    (∀ c ∈ cols,
      Obj.get row' c.name =
        (if !(Obj.hasOwn patch c.name) then
          (match c.onUpdateFn with
            | some f => f (Obj.get existing c.name)
            | none => Obj.get row c.name)
        else Obj.get row c.name)) ∧
    (∀ k, (∀ c ∈ cols, c.name ≠ k) → Obj.get row' k = Obj.get row k) := by
  intro cols
  induction cols with
  | nil =>
    intro row s row' s' _ h
    have h2 : ((Except.ok row, s) : (Except String Obj) × MemState) = (Except.ok row', s') := h
    injection h2 with ha hb
    injection ha with ha
    subst ha
    exact ⟨fun c hc => absurd hc (List.not_mem_nil c), fun k _ => rfl⟩
  | cons c rest ih =>
    intro row s row' s' hnodup h
    rw [List.map_cons, List.nodup_cons] at hnodup
    rw [normalizeUpdateColumns, M.bind_apply] at h
    rcases hx : (normalizeUpdateColumn table existing patch row c) s with ⟨r1, s1⟩
    rw [hx] at h
    cases r1 with
    | error e => cases h
    | ok row2 =>
      have hval := normalizeUpdateColumn_ok table existing patch row c s row2 s1 hx
      have ihh := ih row2 s1 row' s' hnodup.2 h
      constructor
      · intro c' hc'
        rcases List.mem_cons.mp hc' with hc' | hc'
        · subst hc'
          have hpres : Obj.get row' c'.name = Obj.get row2 c'.name :=
            ihh.2 c'.name (fun c2 hc2 h2 =>
              hnodup.1 (h2 ▸ List.mem_map_of_mem (fun c => c.name) hc2))
          rw [hpres, hval, Obj.get_set_self]
        · have hne : c'.name ≠ c.name := by
            intro h2
            exact hnodup.1 (h2 ▸ List.mem_map_of_mem (fun cc => cc.name) hc')
          have := ihh.1 c' hc'
          rw [hval] at this
          rw [this, Obj.get_set_ne row c.name c'.name _ hne]
      · intro k hk
        have h1 : Obj.get row' k = Obj.get row2 k :=
          ihh.2 k (fun c2 hc2 => hk c2 (List.mem_cons_of_mem c hc2))
        have hck : c.name ≠ k := hk c (List.mem_cons_self c rest)
        rw [h1, hval, Obj.get_set_ne row c.name k _ (fun h2 => hck h2.symm)]

/-- C7: on every memory-backend update, a column literally present in the
patch (even as an explicit `undefined`) takes the patch value and its
onUpdate producer is suppressed; a column absent from the patch gets its
onUpdate producer applied to the pre-update value (or keeps its old value
if it has no producer); and no update ever touches the sequence map, so
identities are never re-allocated on update. -/
theorem onUpdate_hook_semantics (schema : Schema) (table : Table) :
    (∀ (whereFn : Obj → Bool) (patch : Obj) (s : MemState),
      ((updateRows schema table whereFn patch) s).2.sequences = s.sequences) ∧
    (∀ (existing patch : Obj) (s : MemState) (row' : Obj) (s' : MemState),
      (table.columns.map (fun c => c.name)).Nodup →
      (patch.map Prod.fst).Nodup →
      (normalizeUpdateRow (some schema) table existing patch
        (MemoryAdapter.makeContext schema)) s = (Except.ok row', s') →
      s' = s ∧
      ∀ c ∈ table.columns,
        (Obj.hasOwn patch c.name = true → Obj.get row' c.name = Obj.get patch c.name) ∧
        (Obj.hasOwn patch c.name = false → ∀ f, c.onUpdateFn = some f →
           Obj.get row' c.name = f (Obj.get existing c.name)) ∧
        (Obj.hasOwn patch c.name = false → c.onUpdateFn = none →
           Obj.get row' c.name = Obj.get existing c.name)) := by
  constructor
  · intro whereFn patch s
    exact updateRows_sequences schema table whereFn patch s
  · intro existing patch s row' s' hcols hpatch h
    have hs' : s' = s := by
      have := normalizeUpdateRow_state schema table existing patch s
      rw [h] at this
      exact this
    refine ⟨hs', ?_⟩
    rw [normalizeUpdateRow, M.bind_apply] at h
    rcases hx : (normalizeUpdateColumns table existing patch table.columns
        (Obj.merge existing patch)) s with ⟨r1, s1⟩
    rw [hx] at h
    cases r1 with
    | error e => cases h
    | ok rowm =>
      have hrow' : rowm = row' := by
        have h2 : ((ensureForeignKeys (some schema) table rowm
            (MemoryAdapter.makeContext schema) >>= fun _ => M.pure rowm) s1) =
            (Except.ok row', s') := h
        rw [M.bind_apply] at h2
        rcases hy : (ensureForeignKeys (some schema) table rowm
            (MemoryAdapter.makeContext schema)) s1 with ⟨r2, s2⟩
        rw [hy] at h2
        cases r2 with
        | ok u =>
          have h3 : ((Except.ok rowm, s2) : (Except String Obj) × MemState) =
            (Except.ok row', s') := h2
          exact Except.ok.inj (congrArg Prod.fst h3)
        | error e =>
          have h3 : ((Except.error e, s2) : (Except String Obj) × MemState) =
            (Except.ok row', s') := h2
          cases congrArg Prod.fst h3
      subst hrow'
      have hchar := normalizeUpdateColumns_get table existing patch table.columns
        (Obj.merge existing patch) s rowm s1 hcols hx
      intro c hc
      have hcval := hchar.1 c hc
      refine ⟨?_, ?_, ?_⟩
      · intro hown
        rw [hcval, hown]
        simp only [Bool.not_true, Bool.false_eq_true, if_false]
        exact Obj.get_merge_of_hasOwn existing patch hpatch c.name hown
      · intro hown f hf
        rw [hcval, hown, hf]
        rfl
      · intro hown hf
        rw [hcval, hown, hf]
        simp only [Bool.not_false, if_true]
        exact Obj.get_merge_of_not_hasOwn existing patch hpatch c.name hown

end Mistfall

namespace Mistfall

/-- Witness for C7: on the `docs` fixture (updatedAt carries
`$onUpdate = prev => prev + 1`), a patch not mentioning `updatedAt` takes
it from 100 to 101, and a patch setting it to 555 wins over the hook. -/
theorem onUpdate_hook_semantics_witness :
    Obj.get [("name", Value.str "q"), ("id", Value.int 1), ("updatedAt", Value.int 101)]
      "updatedAt" = Value.int 101 ∧
    Obj.get [("name", Value.str "a"), ("id", Value.int 1), ("updatedAt", Value.int 555)]
      "updatedAt" = Value.int 555 := by
  have hmem : updatedAtColumn ∈ docsTable.columns :=
    List.mem_cons_of_mem _ (List.mem_cons_of_mem _ (List.mem_cons_self _ _))
  have h1 := ((onUpdate_hook_semantics docsSchema docsTable).2
    [("name", Value.str "a"), ("id", Value.int 1), ("updatedAt", Value.int 100)]
    [("name", Value.str "q")] docsState
    [("name", Value.str "q"), ("id", Value.int 1), ("updatedAt", Value.int 101)] docsState
    (by decide) (by decide) rfl).2 updatedAtColumn hmem
  have h2 := ((onUpdate_hook_semantics docsSchema docsTable).2
    [("name", Value.str "a"), ("id", Value.int 1), ("updatedAt", Value.int 100)]
    [("updatedAt", Value.int 555)] docsState
    [("name", Value.str "a"), ("id", Value.int 1), ("updatedAt", Value.int 555)] docsState
    (by decide) (by decide) rfl).2 updatedAtColumn hmem
  constructor
  · have h3 := h1.2.1 rfl
      (fun prev => match prev with | Value.int n => Value.int (n + 1) | v => v) rfl
    exact h3.trans rfl
  · exact (h2.1 rfl).trans rfl

end Mistfall

namespace Mistfall

theorem fkSatisfied_mono (schema : Schema) (s1 s2 : MemState) (row : Obj) (c : Column)
    (hmono : ∀ nm k, listHas ((listGet? s1.stores nm).getD []) k = true →
      listHas ((listGet? s2.stores nm).getD []) k = true)
    (h : fkSatisfied schema s1 row c = true) : fkSatisfied schema s2 row c = true := by
  unfold fkSatisfied at h ⊢
  cases hfk : c.foreignKey with
  | none => rfl
  | some fk =>
    rw [hfk] at h
    by_cases hv : Obj.get row c.name = Value.undef ∨ Obj.get row c.name = Value.null
    · simp only [hv, if_true]
    · simp only [hv, if_false] at h ⊢
      cases htt : listGet? schema.tables fk.tableName with
      | none => rfl
      | some tt =>
        rw [htt] at h
        have h2 : (match getColumn? tt fk.columnName with
          | none => true
          | some _ =>
              listHas ((listGet? s1.stores (storeName schema tt)).getD [])
                (Obj.get row c.name)) = true := h
        show (match getColumn? tt fk.columnName with
          | none => true
          | some _ =>
              listHas ((listGet? s2.stores (storeName schema tt)).getD [])
                (Obj.get row c.name)) = true
        cases htc : getColumn? tt fk.columnName with
        | none => rfl
        | some tc =>
          rw [htc] at h2
          exact hmono (storeName schema tt) (Obj.get row c.name) h2

theorem foldl_computed_get :
    ∀ (idxs : List IndexDef) (row : Obj) (k : String),
    (∀ idx ∈ idxs, ∀ cf, idx.computed = some cf → cf.field ≠ k) →
    Obj.get (idxs.foldl (fun r idx =>
      match idx.computed with
      | some c => Obj.set r c.field (c.expression r)
      | none => r) row) k = Obj.get row k := by
  intro idxs
  induction idxs with
  | nil => intro row k _; rfl
  | cons idx rest ih =>
    intro row k h
    rw [List.foldl_cons]
    cases hc : idx.computed with
    | none =>
      exact ih row k (fun i hi cf hcf => h i (List.mem_cons_of_mem idx hi) cf hcf)
    | some cf =>
      have hne : cf.field ≠ k := h idx (List.mem_cons_self idx rest) cf hc
      rw [ih _ k (fun i hi cf2 hcf2 => h i (List.mem_cons_of_mem idx hi) cf2 hcf2)]
      exact Obj.get_set_ne row cf.field k _ (fun h2 => hne h2.symm)

theorem applyComputedFields_get (table : Table) (row : Obj) (k : String)
    (h : ∀ idx ∈ table.indexes, ∀ cf, idx.computed = some cf → cf.field ≠ k) :
    Obj.get (applyComputedFields table row) k = Obj.get row k :=
  foldl_computed_get table.indexes row k h

/-- Dissecting a successful single insert: the committed row is the
normalized row with computed fields applied, and the final stores contain
every key the post-normalization state had. -/
theorem insertOne_fk (schema : Schema) (table : Table) (v : Obj) (s : MemState)
    (r : Obj) (s' : MemState)
    (h : (insertOne schema table (MemoryAdapter.makeContext schema) v) s = (Except.ok r, s')) :
    ∃ nr0 s1, (normalizeInsertRow (some schema) table v (MemoryAdapter.makeContext schema)) s =
        (Except.ok nr0, s1) ∧ r = applyComputedFields table nr0 ∧
      (∀ nm k, listHas ((listGet? s1.stores nm).getD []) k = true →
         listHas ((listGet? s'.stores nm).getD []) k = true) := by
  rw [insertOne] at h
  rcases hx : (normalizeInsertRow (some schema) table v (MemoryAdapter.makeContext schema)) s
    with ⟨r0, s1⟩
  rw [M.bind_apply, hx] at h
  cases r0 with
  | error e => cases h
  | ok nr0 =>
    refine ⟨nr0, s1, rfl, ?_⟩
    have h2 : (((M.lift (primaryKeyColumn table) : M Column) >>= fun pkCol =>
        getStoreM schema table >>= fun store =>
        if listHas store (Obj.get (applyComputedFields table nr0) pkCol.name) then
          M.throw ("Primary key violation on " ++ table.name ++ "." ++ pkCol.name)
        else
          modifyStoreM schema table (fun st =>
            mapSet st (Obj.get (applyComputedFields table nr0) pkCol.name)
              (applyComputedFields table nr0)) >>=
            fun _ => M.pure (applyComputedFields table nr0)) s1) = (Except.ok r, s') := h
    cases hpk : primaryKeyColumn table with
    | error e =>
      rw [M.lift_bind_error (primaryKeyColumn table) _ s1 e hpk] at h2
      cases h2
    | ok pkCol =>
      rw [M.lift_bind_ok (primaryKeyColumn table) _ s1 pkCol hpk] at h2
      rw [getStoreM_bind] at h2
      by_cases hguard : listHas ((listGet? s1.stores (storeName schema table)).getD [])
          (Obj.get (applyComputedFields table nr0) pkCol.name) = true
      · rw [if_pos hguard, M.throw_apply] at h2
        cases h2
      · rw [if_neg hguard, modifyStoreM_bind, M.pure_def] at h2
        have h3 : ((Except.ok (applyComputedFields table nr0),
            (⟨mapSet s1.stores (storeName schema table)
              (mapSet ((listGet? s1.stores (storeName schema table)).getD [])
                (Obj.get (applyComputedFields table nr0) pkCol.name)
                (applyComputedFields table nr0)), s1.sequences⟩ : MemState)) :
            (Except String Obj) × MemState) = (Except.ok r, s') := h2
        injection h3 with ha hb
        injection ha with ha
        subst hb
        refine ⟨ha.symm, ?_⟩
        intro nm k hk
        by_cases hnm : nm = storeName schema table
        · subst hnm
          show listHas ((listGet? (mapSet s1.stores (storeName schema table)
            (mapSet ((listGet? s1.stores (storeName schema table)).getD [])
              (Obj.get (applyComputedFields table nr0) pkCol.name)
              (applyComputedFields table nr0))) (storeName schema table)).getD []) k = true
          rw [listGet?_mapSet_self]
          simp only [Option.getD_some]
          exact listHas_mapSet_mono _ _ _ _ hk
        · show listHas ((listGet? (mapSet s1.stores (storeName schema table)
            (mapSet ((listGet? s1.stores (storeName schema table)).getD [])
              (Obj.get (applyComputedFields table nr0) pkCol.name)
              (applyComputedFields table nr0))) nm).getD []) k = true
          rw [listGet?_mapSet_ne _ _ _ _ hnm]
          exact hk

/-- A successful `normalizeInsertRow` implies the memory foreign-key
check passed on the normalized row against the resulting state. -/
theorem normalizeInsertRow_fk (schema : Schema) (table : Table) (v : Obj) (s : MemState)
    (nr0 : Obj) (s1 : MemState)
    (h : (normalizeInsertRow (some schema) table v (MemoryAdapter.makeContext schema)) s =
      (Except.ok nr0, s1)) :
    ∀ c ∈ table.columns, fkSatisfied schema s1 nr0 c = true := by
  rw [normalizeInsertRow, M.bind_apply] at h
  rcases hx : (normalizeInsertColumns table (MemoryAdapter.makeContext schema) table.columns v) s
    with ⟨r0, s0⟩
  rw [hx] at h
  cases r0 with
  | error e => cases h
  | ok row0 =>
    have h2 : ((ensureForeignKeys (some schema) table row0
        (MemoryAdapter.makeContext schema) >>= fun _ => M.pure row0) s0) =
        (Except.ok nr0, s1) := h
    rw [M.bind_apply] at h2
    rcases hy : (ensureForeignKeys (some schema) table row0
        (MemoryAdapter.makeContext schema)) s0 with ⟨r2, s2⟩
    rw [hy] at h2
    have hs2 : s2 = s0 := by
      have := ensureForeignKeys_state schema table row0 s0
      rw [hy] at this
      exact this
    cases r2 with
    | error e =>
      have h3 : ((Except.error e, s2) : (Except String Obj) × MemState) =
        (Except.ok nr0, s1) := h2
      cases congrArg Prod.fst h3
    | ok u =>
      have h3 : ((Except.ok row0, s2) : (Except String Obj) × MemState) =
        (Except.ok nr0, s1) := h2
      injection h3 with ha hb
      injection ha with ha
      subst ha
      subst hb
      have hok := ensureForeignKeys_ok_iff schema table row0 s0
      rw [hy] at hok
      rw [hs2]
      exact hok.mp rfl

end Mistfall

namespace Mistfall

theorem fkSatisfied_row_congr (schema : Schema) (s : MemState) (row1 row2 : Obj) (c : Column)
    (h : Obj.get row1 c.name = Obj.get row2 c.name) :
    fkSatisfied schema s row1 c = fkSatisfied schema s row2 c := by
  unfold fkSatisfied
  cases hfk : c.foreignKey with
  | none => rfl
  | some fk =>
    show (if Obj.get row1 c.name = Value.undef ∨ Obj.get row1 c.name = Value.null then true
      else match listGet? schema.tables fk.tableName with
        | none => true
        | some targetTable =>
          match getColumn? targetTable fk.columnName with
          | none => true
          | some _ => listHas ((listGet? s.stores (storeName schema targetTable)).getD [])
              (Obj.get row1 c.name)) =
      (if Obj.get row2 c.name = Value.undef ∨ Obj.get row2 c.name = Value.null then true
      else match listGet? schema.tables fk.tableName with
        | none => true
        | some targetTable =>
          match getColumn? targetTable fk.columnName with
          | none => true
          | some _ => listHas ((listGet? s.stores (storeName schema targetTable)).getD [])
              (Obj.get row2 c.name))
    rw [h]

/-- A successful `normalizeUpdateRow` implies the memory foreign-key
check passed on the merged row against the (unchanged) state. -/
theorem normalizeUpdateRow_fk (schema : Schema) (table : Table) (existing patch : Obj)
    (s : MemState) (row' : Obj) (s' : MemState)
    (h : (normalizeUpdateRow (some schema) table existing patch
      (MemoryAdapter.makeContext schema)) s = (Except.ok row', s')) :
    ∀ c ∈ table.columns, fkSatisfied schema s row' c = true := by
  rw [normalizeUpdateRow, M.bind_apply] at h
  rcases hx : (normalizeUpdateColumns table existing patch table.columns
      (Obj.merge existing patch)) s with ⟨r0, s0⟩
  rw [hx] at h
  have hs0 : s0 = s := by
    have := normalizeUpdateColumns_state table existing patch table.columns
      (Obj.merge existing patch) s
    rw [hx] at this
    exact this
  cases r0 with
  | error e => cases h
  | ok row0 =>
    have h2 : ((ensureForeignKeys (some schema) table row0
        (MemoryAdapter.makeContext schema) >>= fun _ => M.pure row0) s0) =
        (Except.ok row', s') := h
    rw [M.bind_apply] at h2
    rcases hy : (ensureForeignKeys (some schema) table row0
        (MemoryAdapter.makeContext schema)) s0 with ⟨r2, s2⟩
    rw [hy] at h2
    cases r2 with
    | error e =>
      have h3 : ((Except.error e, s2) : (Except String Obj) × MemState) =
        (Except.ok row', s') := h2
      cases congrArg Prod.fst h3
    | ok u =>
      have h3 : ((Except.ok row0, s2) : (Except String Obj) × MemState) =
        (Except.ok row', s') := h2
      have hrow : row0 = row' := Except.ok.inj (congrArg Prod.fst h3)
      subst hrow
      have hok := ensureForeignKeys_ok_iff schema table row0 s0
      rw [hy] at hok
      rw [← hs0]
      exact hok.mp rfl

/-- C2: memory-backend foreign-key enforcement. (i) `ensureForeignKeys`
reads only and succeeds exactly when every column's foreign-key condition
holds — vacuously for columns without metadata or with an `undefined`/
`null` value, and otherwise requiring the target store to hold the value
as a primary key; (ii) the first violating column rejects the write with
the message naming source and target table/column; (iii) a committed
insert's row satisfies every foreign-key condition against the commit
state; (iv) a normalized update satisfies them against the (unchanged)
check state. -/
theorem foreign_key_enforcement (schema : Schema) (table : Table) :
    (∀ (row : Obj) (s : MemState),
      ((ensureForeignKeys (some schema) table row (MemoryAdapter.makeContext schema)) s).2 = s ∧
      (((ensureForeignKeys (some schema) table row (MemoryAdapter.makeContext schema)) s).1 =
          Except.ok () ↔
        ∀ c ∈ table.columns, fkSatisfied schema s row c = true)) ∧
    (∀ (row : Obj) (s : MemState) (pre post : List Column) (c : Column) (fk : ForeignKey)
        (tt : Table) (tc : Column),
      table.columns = pre ++ c :: post →
      (∀ c' ∈ pre, fkSatisfied schema s row c' = true) →
      c.foreignKey = some fk →
      listGet? schema.tables fk.tableName = some tt →
      getColumn? tt fk.columnName = some tc →
      ¬(Obj.get row c.name = Value.undef ∨ Obj.get row c.name = Value.null) →
      listHas ((listGet? s.stores (storeName schema tt)).getD [])
        (Obj.get row c.name) = false →
      (ensureForeignKeys (some schema) table row (MemoryAdapter.makeContext schema)) s =
        (Except.error ("Foreign key violation: " ++ table.name ++ "." ++ c.name ++ " ➜ " ++
          tt.name ++ "." ++ tc.name), s)) ∧
    (∀ (v : Obj) (s : MemState) (r : Obj) (s' : MemState),
      (insertRows schema table [v]) s = (Except.ok [r], s') →
      ∀ c ∈ table.columns,
      (∀ idx ∈ table.indexes, ∀ cf, idx.computed = some cf → cf.field ≠ c.name) →
      fkSatisfied schema s' r c = true) ∧
    (∀ (existing patch : Obj) (s : MemState) (row' : Obj) (s' : MemState),
      (normalizeUpdateRow (some schema) table existing patch
        (MemoryAdapter.makeContext schema)) s = (Except.ok row', s') →
      s' = s ∧ ∀ c ∈ table.columns, fkSatisfied schema s row' c = true) := by
  refine ⟨?_, ?_, ?_, ?_⟩
  · intro row s
    exact ⟨ensureForeignKeys_state schema table row s,
      ensureForeignKeys_ok_iff schema table row s⟩
  · intro row s pre post c fk tt tc hsplit hpre hfk htt htc hv hmiss
    show (ensureForeignKeysAux schema table row (MemoryAdapter.makeContext schema)
      table.columns) s = _
    rw [hsplit]
    exact ensureForeignKeysAux_error schema table row c post _ pre s hpre
      (ensureForeignKeyColumn_error schema table row c s fk tt tc hfk htt htc hv hmiss)
  · intro v s r s' h c hc hcomp
    rw [insertRows, insertRowsAux] at h
    rcases hio : (insertOne schema table (MemoryAdapter.makeContext schema) v) s with ⟨r0, s0⟩
    rw [M.bind_apply, hio] at h
    cases r0 with
    | error e => cases h
    | ok nr =>
      have h2 : ((Except.ok ([] ++ [nr]), s0) : (Except String (List Obj)) × MemState) =
        (Except.ok [r], s') := h
      injection h2 with ha hb
      injection ha with ha
      have hnr : nr = r := by
        have := List.head_eq_of_cons_eq ha
        exact this
      subst hnr
      subst hb
      rcases insertOne_fk schema table v s nr s0 hio with ⟨nr0, s1, hnorm, hr, hmono⟩
      have hfk1 := normalizeInsertRow_fk schema table v s nr0 s1 hnorm c hc
      have hfk2 : fkSatisfied schema s0 nr0 c = true :=
        fkSatisfied_mono schema s1 s0 nr0 c hmono hfk1
      have hget : Obj.get nr0 c.name = Obj.get nr c.name := by
        rw [hr]
        exact (applyComputedFields_get table nr0 c.name hcomp).symm
      rw [← fkSatisfied_row_congr schema s0 nr0 nr c hget]
      exact hfk2
  · intro existing patch s row' s' h
    refine ⟨?_, normalizeUpdateRow_fk schema table existing patch s row' s' h⟩
    have := normalizeUpdateRow_state schema table existing patch s
    rw [h] at this
    exact this

end Mistfall

namespace Mistfall

/-- Witness for C2: inserting a todo with `ownerId = 2` against a state
holding only user 1 rejects with the foreign-key violation naming
`todos.ownerId ➜ users.id`; the committed todo with `ownerId = 1`
satisfies its foreign-key condition at commit time. -/
theorem foreign_key_enforcement_witness :
    (ensureForeignKeys (some demoSchema) todosTable
      [("title", Value.str "t2"), ("ownerId", Value.int 2), ("id", Value.int 5)]
      (MemoryAdapter.makeContext demoSchema)) userState1 =
      (Except.error "Foreign key violation: todos.ownerId ➜ users.id", userState1) ∧
    fkSatisfied demoSchema userTodoState
      [("title", Value.str "t"), ("ownerId", Value.int 1), ("id", Value.int 1)]
      ⟨"ownerId", notNullFlags, none, none, none, some ⟨"users", "id", "restrict"⟩⟩ = true := by
  constructor
  · exact (foreign_key_enforcement demoSchema todosTable).2.1
      [("title", Value.str "t2"), ("ownerId", Value.int 2), ("id", Value.int 5)] userState1
      [⟨"id", pkIdentityFlags, none, none, none, none⟩,
       ⟨"title", notNullFlags, none, none, none, none⟩] []
      ⟨"ownerId", notNullFlags, none, none, none, some ⟨"users", "id", "restrict"⟩⟩
      ⟨"users", "id", "restrict"⟩ usersTable
      ⟨"id", pkIdentityFlags, none, none, none, none⟩
      rfl
      (by
        intro c' hc'
        rcases List.mem_cons.mp hc' with h | h
        · subst h; rfl
        · rcases List.mem_cons.mp h with h2 | h2
          · subst h2; rfl
          · cases h2)
      rfl rfl rfl (by decide) rfl
  · exact (foreign_key_enforcement demoSchema todosTable).2.2.1
      [("title", Value.str "t"), ("ownerId", Value.int 1)] userState1
      [("title", Value.str "t"), ("ownerId", Value.int 1), ("id", Value.int 1)] userTodoState
      rfl
      ⟨"ownerId", notNullFlags, none, none, none, some ⟨"users", "id", "restrict"⟩⟩
      (List.mem_cons_of_mem _ (List.mem_cons_of_mem _ (List.mem_cons_self _ _)))
      (fun idx hidx => absurd hidx (List.not_mem_nil idx))

end Mistfall

namespace Mistfall

/-! ## Restrict-delete lemmas -/

theorem restrictScan_of_any_false (ref : ForeignReference) (key : Value) :
    ∀ (entries : List (Value × Obj)) (s : MemState),
    entries.any (fun p => decide (Obj.get p.2 ref.column.name = key)) = false →
    (restrictScan ref key entries) s = (Except.ok (), s) := by
  intro entries
  induction entries with
  | nil => intro s _; rfl
  | cons p rest ih =>
    intro s h
    rw [List.any_cons] at h
    rcases p with ⟨k, row⟩
    rw [restrictScan]
    rw [Bool.or_eq_false_iff] at h
    rw [if_neg (of_decide_eq_false h.1)]
    exact ih s h.2

theorem restrictScan_of_any_true (ref : ForeignReference) (key : Value) :
    ∀ (entries : List (Value × Obj)) (s : MemState),
    entries.any (fun p => decide (Obj.get p.2 ref.column.name = key)) = true →
    (restrictScan ref key entries) s =
      (Except.error ("Delete restricted by " ++ ref.table.name ++ "." ++ ref.column.name), s) := by
  intro entries
  induction entries with
  | nil => intro s h; cases h
  | cons p rest ih =>
    intro s h
    rcases p with ⟨k, row⟩
    rw [restrictScan]
    by_cases hh : Obj.get row ref.column.name = key
    · rw [if_pos hh]
      rfl
    · rw [if_neg hh]
      rw [List.any_cons] at h
      rcases Bool.or_eq_true_iff.mp h with h1 | h1
      · exact absurd (of_decide_eq_true h1) hh
      · exact ih s h1

theorem assertRestrictDeleteMemory_ok (schema : Schema) (key : Value) :
    ∀ (dependents : List ForeignReference) (s : MemState),
    (∀ ref ∈ dependents, restrictHit schema s key ref = false) →
    (assertRestrictDeleteMemory dependents key schema) s = (Except.ok (), s) := by
  intro dependents
  induction dependents with
  | nil => intro s _; rfl
  | cons ref rest ih =>
    intro s h
    show (assertRestrictDeleteMemoryAux key schema (ref :: rest)) s = (Except.ok (), s)
    rw [assertRestrictDeleteMemoryAux, M.bind_apply]
    rw [show (M.get) s = (Except.ok s, s) from rfl]
    have href := h ref (List.mem_cons_self ref rest)
    unfold restrictHit at href
    show ((match listGet? s.stores (storeName schema ref.table) with
      | none => assertRestrictDeleteMemoryAux key schema rest
      | some store => restrictScan ref key store >>=
          fun _ => assertRestrictDeleteMemoryAux key schema rest) s) = (Except.ok (), s)
    cases hst : listGet? s.stores (storeName schema ref.table) with
    | none => exact ih s (fun r hr => h r (List.mem_cons_of_mem ref hr))
    | some store =>
      rw [hst] at href
      show ((restrictScan ref key store >>=
        fun _ => assertRestrictDeleteMemoryAux key schema rest) s) = (Except.ok (), s)
      rw [M.bind_apply_ok _ _ s () s (restrictScan_of_any_false ref key store s href)]
      exact ih s (fun r hr => h r (List.mem_cons_of_mem ref hr))

theorem assertRestrictDeleteMemory_error (schema : Schema) (key : Value)
    (ref : ForeignReference) (dpost : List ForeignReference) :
    ∀ (dpre : List ForeignReference) (s : MemState),
    (∀ ref' ∈ dpre, restrictHit schema s key ref' = false) →
    restrictHit schema s key ref = true →
    (assertRestrictDeleteMemory (dpre ++ ref :: dpost) key schema) s =
      (Except.error ("Delete restricted by " ++ ref.table.name ++ "." ++ ref.column.name), s) := by
  intro dpre
  induction dpre with
  | nil =>
    intro s _ hhit
    show (assertRestrictDeleteMemoryAux key schema (ref :: dpost)) s = _
    rw [assertRestrictDeleteMemoryAux, M.bind_apply]
    rw [show (M.get) s = (Except.ok s, s) from rfl]
    unfold restrictHit at hhit
    show ((match listGet? s.stores (storeName schema ref.table) with
      | none => assertRestrictDeleteMemoryAux key schema dpost
      | some store => restrictScan ref key store >>=
          fun _ => assertRestrictDeleteMemoryAux key schema dpost) s) = _
    cases hst : listGet? s.stores (storeName schema ref.table) with
    | none => rw [hst] at hhit; cases hhit
    | some store =>
      rw [hst] at hhit
      show ((restrictScan ref key store >>=
        fun _ => assertRestrictDeleteMemoryAux key schema dpost) s) = _
      exact M.bind_apply_error _ _ s _ s (restrictScan_of_any_true ref key store s hhit)
  | cons ref0 rest ih =>
    intro s hpre hhit
    show (assertRestrictDeleteMemoryAux key schema (ref0 :: (rest ++ ref :: dpost))) s = _
    rw [assertRestrictDeleteMemoryAux, M.bind_apply]
    rw [show (M.get) s = (Except.ok s, s) from rfl]
    have href0 := hpre ref0 (List.mem_cons_self ref0 rest)
    unfold restrictHit at href0
    show ((match listGet? s.stores (storeName schema ref0.table) with
      | none => assertRestrictDeleteMemoryAux key schema (rest ++ ref :: dpost)
      | some store => restrictScan ref0 key store >>=
          fun _ => assertRestrictDeleteMemoryAux key schema (rest ++ ref :: dpost)) s) = _
    cases hst : listGet? s.stores (storeName schema ref0.table) with
    | none => exact ih s (fun r hr => hpre r (List.mem_cons_of_mem ref0 hr)) hhit
    | some store =>
      rw [hst] at href0
      show ((restrictScan ref0 key store >>=
        fun _ => assertRestrictDeleteMemoryAux key schema (rest ++ ref :: dpost)) s) = _
      rw [M.bind_apply_ok _ _ s () s (restrictScan_of_any_false ref0 key store s href0)]
      exact ih s (fun r hr => hpre r (List.mem_cons_of_mem ref0 hr)) hhit

end Mistfall

namespace Mistfall

theorem deleteRowsAux_blocked (schema : Schema) (table : Table) (whereFn : Obj → Bool)
    (dependents : List ForeignReference) (k : Value) (row : Obj)
    (post : List (Value × Obj)) (pkCol : Column) (e : String)
    (hpk : primaryKeyColumn table = Except.ok pkCol) :
    ∀ (pre : List (Value × Obj)) (acc : Nat) (s : MemState),
    (∀ p ∈ pre, whereFn p.2 = false) →
    whereFn row = true →
    (assertRestrictDeleteMemory dependents (Obj.get row pkCol.name) schema) s =
      (Except.error e, s) →
    (deleteRowsAux schema table whereFn dependents (pre ++ (k, row) :: post) acc) s =
      (Except.error e, s) := by
  intro pre
  induction pre with
  | nil =>
    intro acc s _ hw hassert
    show (deleteRowsAux schema table whereFn dependents ((k, row) :: post) acc) s = _
    rw [deleteRowsAux, hw]
    simp only [Bool.not_true, Bool.false_eq_true, if_false]
    rw [M.lift_bind_ok (primaryKeyColumn table) _ s pkCol hpk]
    exact M.bind_apply_error _ _ s e s hassert
  | cons p rest ih =>
    intro acc s hpre hw hassert
    rcases p with ⟨k0, row0⟩
    show (deleteRowsAux schema table whereFn dependents
      ((k0, row0) :: (rest ++ (k, row) :: post)) acc) s = _
    rw [deleteRowsAux]
    have h0 : whereFn row0 = false := hpre (k0, row0) (List.mem_cons_self _ _)
    rw [h0]
    simp only [Bool.not_false, if_true]
    exact ih acc s (fun q hq => hpre q (List.mem_cons_of_mem _ hq)) hw hassert

theorem deleteRowsAux_ok (schema : Schema) (table : Table) (whereFn : Obj → Bool)
    (dependents : List ForeignReference) :
    ∀ (entries : List (Value × Obj)) (acc : Nat) (s : MemState) (stcur : List (Value × Obj))
      (n : Nat) (s' : MemState),
    listGet? s.stores (storeName schema table) = some stcur →
    (deleteRowsAux schema table whereFn dependents entries acc) s = (Except.ok n, s') →
    n = acc + entries.countP (fun p => whereFn p.2) ∧
    s'.sequences = s.sequences ∧
    (∀ nm, nm ≠ storeName schema table → listGet? s'.stores nm = listGet? s.stores nm) ∧
    listGet? s'.stores (storeName schema table) =
      some (((entries.filter (fun p => whereFn p.2)).map Prod.fst).foldl mapDelete stcur) := by
  intro entries
  induction entries with
  | nil =>
    intro acc s stcur n s' hst h
    have h2 : ((Except.ok acc, s) : (Except String Nat) × MemState) = (Except.ok n, s') := h
    injection h2 with ha hb
    injection ha with ha
    subst ha
    subst hb
    refine ⟨(Nat.add_zero acc).symm, rfl, fun nm _ => rfl, ?_⟩
    rw [hst]
    rfl
  | cons p rest ih =>
    intro acc s stcur n s' hst h
    rcases p with ⟨k, row⟩
    rw [deleteRowsAux] at h
    by_cases hw : whereFn row = true
    · rw [hw] at h
      simp only [Bool.not_true, Bool.false_eq_true, if_false] at h
      cases hpk : primaryKeyColumn table with
      | error e =>
        rw [M.lift_bind_error (primaryKeyColumn table) _ s e hpk] at h
        cases congrArg Prod.fst h
      | ok pkCol =>
        rw [M.lift_bind_ok (primaryKeyColumn table) _ s pkCol hpk] at h
        rcases hassert : (assertRestrictDeleteMemory dependents
            (Obj.get row pkCol.name) schema) s with ⟨ra, sa⟩
        have hsa : sa = s := by
          have := assertRestrictDeleteMemoryAux_state (Obj.get row pkCol.name) schema dependents s
          rw [show assertRestrictDeleteMemory dependents (Obj.get row pkCol.name) schema =
            assertRestrictDeleteMemoryAux (Obj.get row pkCol.name) schema dependents
            from rfl] at hassert
          rw [hassert] at this
          exact this
        rw [M.bind_apply, hassert] at h
        cases ra with
        | error e => cases congrArg Prod.fst h
        | ok u =>
          have h2 : ((modifyStoreM schema table (fun st => mapDelete st k) >>=
            fun _ => deleteRowsAux schema table whereFn dependents rest (acc + 1)) sa) =
            (Except.ok n, s') := h
          rw [modifyStoreM_bind] at h2
          rw [hsa] at h2
          rw [hst] at h2
          have hih := ih (acc + 1)
            ⟨mapSet s.stores (storeName schema table) (mapDelete stcur k), s.sequences⟩
            (mapDelete stcur k) n s'
            (by rw [listGet?_mapSet_self])
            h2
          refine ⟨?_, hih.2.1, ?_, ?_⟩
          · rw [hih.1]
            rw [List.countP_cons]
            simp only [hw, if_true]
            omega
          · intro nm hnm
            rw [hih.2.2.1 nm hnm]
            simp only
            rw [listGet?_mapSet_ne _ _ _ _ hnm]
          · rw [hih.2.2.2]
            rw [List.filter_cons]
            simp only [hw, if_true, List.map_cons, List.foldl_cons]
    · have hw2 : whereFn row = false := by
        revert hw
        cases whereFn row <;> simp
      rw [hw2] at h
      simp only [Bool.not_false, if_true] at h
      have hih := ih acc s stcur n s' hst h
      refine ⟨?_, hih.2.1, hih.2.2.1, ?_⟩
      · rw [hih.1, List.countP_cons]
        simp [hw2]
      · rw [hih.2.2.2, List.filter_cons]
        simp only [hw2, Bool.false_eq_true, if_false]

end Mistfall

namespace Mistfall

theorem mapDelete_cons_ne {κ α : Type} [DecidableEq κ] (k k' : κ) (v : α)
    (st : List (κ × α)) (h : ¬k = k') :
    mapDelete ((k, v) :: st) k' = (k, v) :: mapDelete st k' := by
  rw [mapDelete]
  exact if_neg h

theorem foldl_mapDelete_cons_of_not_mem {κ α : Type} [DecidableEq κ] (k : κ) (v : α) :
    ∀ (ks : List κ) (st : List (κ × α)), k ∉ ks →
    ks.foldl mapDelete ((k, v) :: st) = (k, v) :: ks.foldl mapDelete st := by
  intro ks
  induction ks with
  | nil => intro st _; rfl
  | cons k' rest ih =>
    intro st hk
    rw [List.foldl_cons, List.foldl_cons]
    rw [mapDelete_cons_ne k k' v st
      (fun he => hk (by rw [he]; exact List.mem_cons_self k' rest))]
    exact ih (mapDelete st k') (fun hm => hk (List.mem_cons_of_mem _ hm))

theorem foldl_mapDelete_filter {κ α : Type} [DecidableEq κ] (q : κ × α → Bool) :
    ∀ (st : List (κ × α)), (st.map Prod.fst).Nodup →
    ((st.filter q).map Prod.fst).foldl mapDelete st = st.filter (fun p => !(q p)) := by
  intro st
  induction st with
  | nil => intro _; rfl
  | cons p rest ih =>
    intro hnd
    rcases p with ⟨k, v⟩
    rw [List.map_cons, List.nodup_cons] at hnd
    rcases hnd with ⟨hk, hnd⟩
    by_cases hq : q (k, v) = true
    · rw [List.filter_cons]
      simp only [hq, if_true, List.map_cons, List.foldl_cons]
      rw [show mapDelete ((k, v) :: rest) k = rest from by rw [mapDelete]; exact if_pos rfl]
      rw [ih hnd]
      rw [List.filter_cons]
      simp [hq]
    · have hq2 : q (k, v) = false := by
        revert hq
        cases q (k, v) <;> simp
      rw [List.filter_cons]
      simp only [hq2, Bool.false_eq_true, if_false]
      have hk2 : k ∉ (List.filter q rest).map Prod.fst := by
        intro hm
        rcases List.mem_map.mp hm with ⟨pp, hpp, hfst⟩
        exact hk (List.mem_map.mpr ⟨pp, List.mem_of_mem_filter hpp, hfst⟩)
      rw [foldl_mapDelete_cons_of_not_mem k v _ rest hk2]
      rw [ih hnd]
      rw [List.filter_cons]
      simp [hq2]

/-- C4: `MemoryAdapter.deleteRows` semantics. Blocked case: when the first
where-matching candidate row (all earlier store entries fail the
predicate) has a primary key referenced by a dependent row — the reverse
dependency map for the table lists `ref` after dependents with no hit,
and some row of `ref`'s store holds the candidate's primary-key value in
`ref`'s foreign-key column — the call rejects with the error
`Delete restricted by <dependent table>.<dependent column>` and the whole
adapter state is exactly the pre-call state, so the candidate row and the
dependent row both still exist. Success case: when the call resolves, the
result is the number of where-matching rows, those rows (and nothing
else) are removed from the table's store, and every other store and the
sequence map are untouched. -/
theorem delete_restrict_semantics (schema : Schema) (table : Table)
    (whereFn : Obj → Bool) (s : MemState) (entries : List (Value × Obj))
    (hst : listGet? s.stores (storeName schema table) = some entries) :
    (∀ (pre : List (Value × Obj)) (k : Value) (row : Obj) (post : List (Value × Obj))
        (pkCol : Column) (dpre : List ForeignReference) (ref : ForeignReference)
        (dpost : List ForeignReference),
      entries = pre ++ (k, row) :: post →
      (∀ p ∈ pre, whereFn p.2 = false) →
      whereFn row = true →
      primaryKeyColumn table = Except.ok pkCol →
      (listGet? (buildReferenceMap schema) table.name).getD [] = dpre ++ ref :: dpost →
      (∀ r ∈ dpre, restrictHit schema s (Obj.get row pkCol.name) r = false) →
      restrictHit schema s (Obj.get row pkCol.name) ref = true →
      (deleteRows schema table whereFn) s =
        (Except.error ("Delete restricted by " ++ ref.table.name ++ "." ++ ref.column.name),
          s)) ∧
    (∀ (n : Nat) (s' : MemState),
      (entries.map Prod.fst).Nodup →
      (deleteRows schema table whereFn) s = (Except.ok n, s') →
      n = entries.countP (fun p => whereFn p.2) ∧
      s'.sequences = s.sequences ∧
      (∀ nm, nm ≠ storeName schema table → listGet? s'.stores nm = listGet? s.stores nm) ∧
      listGet? s'.stores (storeName schema table) =
        some (entries.filter (fun p => !(whereFn p.2)))) := by
  constructor
  · intro pre k row post pkCol dpre ref dpost hentries hpre hw hpk hdeps hdpre hhit
    show (getStoreM schema table >>= fun store =>
      deleteRowsAux schema table whereFn
        ((listGet? (buildReferenceMap schema) table.name).getD []) store 0) s = _
    rw [getStoreM_bind, hst]
    show (deleteRowsAux schema table whereFn
      ((listGet? (buildReferenceMap schema) table.name).getD []) entries 0) s = _
    rw [hdeps, hentries]
    exact deleteRowsAux_blocked schema table whereFn (dpre ++ ref :: dpost) k row post pkCol _
      hpk pre 0 s hpre hw
      (assertRestrictDeleteMemory_error schema (Obj.get row pkCol.name) ref dpost dpre s
        hdpre hhit)
  · intro n s' hnd h
    have h3 : (getStoreM schema table >>= fun store =>
      deleteRowsAux schema table whereFn
        ((listGet? (buildReferenceMap schema) table.name).getD []) store 0) s =
        (Except.ok n, s') := h
    rw [getStoreM_bind, hst] at h3
    have h2 : (deleteRowsAux schema table whereFn
      ((listGet? (buildReferenceMap schema) table.name).getD []) entries 0) s =
        (Except.ok n, s') := h3
    have hok := deleteRowsAux_ok schema table whereFn _ entries 0 s entries n s' hst h2
    refine ⟨by rw [hok.1]; exact Nat.zero_add _, hok.2.1, hok.2.2.1, ?_⟩
    rw [hok.2.2.2, foldl_mapDelete_filter (fun p => whereFn p.2) entries hnd]

theorem delete_restrict_semantics_witness :
    ((deleteRows demoSchema usersTable (fun _ => true)) userTodoState =
      (Except.error "Delete restricted by todos.ownerId", userTodoState)) ∧
    listGet?
      (Prod.snd ((deleteRows demoSchema todosTable (fun _ => true)) userTodoState)).stores
      "demo__todos" = some [] := by
  constructor
  · exact (delete_restrict_semantics demoSchema usersTable (fun _ => true) userTodoState
      [(Value.int 1, [("name", Value.str "x"), ("id", Value.int 1)])] rfl).1
      [] (Value.int 1) [("name", Value.str "x"), ("id", Value.int 1)] []
      ⟨"id", pkIdentityFlags, none, none, none, none⟩
      []
      ⟨todosTable, ⟨"ownerId", notNullFlags, none, none, none,
        some ⟨"users", "id", "restrict"⟩⟩⟩
      []
      rfl (fun p hp => absurd hp (List.not_mem_nil p)) rfl rfl rfl
      (fun r hr => absurd hr (List.not_mem_nil r)) rfl
  · have hok := (delete_restrict_semantics demoSchema todosTable (fun _ => true) userTodoState
      [(Value.int 1,
        [("title", Value.str "t"), ("ownerId", Value.int 1), ("id", Value.int 1)])]
      rfl).2 1
      ⟨[("demo__users", [(Value.int 1, [("name", Value.str "x"), ("id", Value.int 1)])]),
        ("demo__todos", [])],
        [("demo__users", 1), ("demo__todos", 1)]⟩
      (by decide) rfl
    exact hok.2.2.2

end Mistfall

namespace Mistfall

theorem normalizeInsertColumn_identity_eq (schema : Schema) (table : Table) (c : Column)
    (hid : c.constraints.identity = true) (row : Obj) (s : MemState)
    (hundef : Obj.get row c.name = Value.undef) :
    (normalizeInsertColumn table (MemoryAdapter.makeContext schema) row c) s =
      (Except.ok (Obj.set row c.name
          (Value.int (Int.ofNat (seqGet s (storeName schema table) + 1)))),
        ⟨s.stores, mapSet s.sequences (storeName schema table)
          (seqGet s (storeName schema table) + 1)⟩) := by
  have hres : (resolveInsertValue table (MemoryAdapter.makeContext schema) row c) s =
      (Except.ok (Value.int (Int.ofNat (seqGet s (storeName schema table) + 1))),
        ⟨s.stores, mapSet s.sequences (storeName schema table)
          (seqGet s (storeName schema table) + 1)⟩) := by
    simp only [resolveInsertValue]
    rw [hundef, if_pos rfl, hid, if_pos rfl]
    rfl
  rw [normalizeInsertColumn]
  rw [M.bind_apply_ok _ _ s _ _ hres]
  rw [if_neg (by rintro ⟨h0 | h0, -⟩ <;> exact Value.noConfusion h0)]
  rw [M.pure_def]

theorem resolveInsertValue_nonid (schema : Schema) (table : Table) (c : Column)
    (hid : c.constraints.identity = false) (row : Obj) (s : MemState) :
    ∃ v, (resolveInsertValue table (MemoryAdapter.makeContext schema) row c) s =
      (Except.ok v, s) := by
  by_cases h0 : Obj.get row c.name = Value.undef
  · simp only [resolveInsertValue]
    rw [h0, if_pos rfl, hid, if_neg (by simp)]
    cases hdf : c.defaultFn with
    | some f => exact ⟨f (), rfl⟩
    | none =>
      cases hdv : c.defaultValue with
      | some dv => exact ⟨dv, rfl⟩
      | none => exact ⟨Value.undef, rfl⟩
  · refine ⟨Obj.get row c.name, ?_⟩
    simp only [resolveInsertValue]
    rw [if_neg h0]
    rfl

theorem normalizeInsertColumn_nonid (schema : Schema) (table : Table) (c : Column)
    (hid : c.constraints.identity = false) (row : Obj) (s : MemState)
    (row' : Obj) (s' : MemState)
    (h : (normalizeInsertColumn table (MemoryAdapter.makeContext schema) row c) s =
      (Except.ok row', s')) :
    s' = s ∧ ∃ v, row' = Obj.set row c.name v := by
  rcases resolveInsertValue_nonid schema table c hid row s with ⟨v, hres⟩
  rw [normalizeInsertColumn] at h
  rw [M.bind_apply_ok _ _ s _ _ hres] at h
  by_cases hcond : (v = Value.undef ∨ v = Value.null) ∧ c.constraints.notNull = true
  · rw [if_pos hcond, M.throw_apply] at h
    cases h
  · rw [if_neg hcond, M.pure_def] at h
    injection h with ha hb
    injection ha with ha
    exact ⟨hb.symm, v, ha.symm⟩

end Mistfall

namespace Mistfall

theorem normalizeInsertColumns_nonid_post (schema : Schema) (table : Table) (nm : String) :
    ∀ (cols : List Column) (row : Obj) (s : MemState) (row' : Obj) (s' : MemState),
    (∀ c ∈ cols, c.constraints.identity = false ∧ ¬(c.name = nm)) →
    (normalizeInsertColumns table (MemoryAdapter.makeContext schema) cols row) s =
      (Except.ok row', s') →
    s' = s ∧ Obj.get row' nm = Obj.get row nm := by
  intro cols
  induction cols with
  | nil =>
    intro row s row' s' _ h
    have h2 : ((Except.ok row, s) : (Except String Obj) × MemState) = (Except.ok row', s') := h
    injection h2 with ha hb
    injection ha with ha
    exact ⟨hb.symm, by rw [ha]⟩
  | cons c rest ih =>
    intro row s row' s' hall h
    rw [normalizeInsertColumns] at h
    rcases hx : (normalizeInsertColumn table (MemoryAdapter.makeContext schema) row c) s
      with ⟨r1, s1⟩
    rw [M.bind_apply, hx] at h
    cases r1 with
    | error e =>
      have h2 : ((Except.error e, s1) : (Except String Obj) × MemState) =
        (Except.ok row', s') := h
      cases congrArg Prod.fst h2
    | ok row1 =>
      have h2 : (normalizeInsertColumns table (MemoryAdapter.makeContext schema) rest row1) s1 =
        (Except.ok row', s') := h
      have hc := hall c (List.mem_cons_self c rest)
      rcases normalizeInsertColumn_nonid schema table c hc.1 row s row1 s1 hx with ⟨hs1, v, hrow1⟩
      rw [hs1] at h2
      have hih := ih row1 s row' s' (fun d hd => hall d (List.mem_cons_of_mem c hd)) h2
      refine ⟨hih.1, ?_⟩
      rw [hih.2, hrow1, Obj.get_set_ne row c.name nm v (fun he => hc.2 he.symm)]

theorem normalizeInsertColumns_identity (schema : Schema) (table : Table) (I : Column)
    (hIid : I.constraints.identity = true) :
    ∀ (cpre : List Column) (cpost : List Column) (row : Obj) (s : MemState)
      (row' : Obj) (s' : MemState),
    (∀ c ∈ cpre, c.constraints.identity = false ∧ ¬(c.name = I.name)) →
    (∀ c ∈ cpost, c.constraints.identity = false ∧ ¬(c.name = I.name)) →
    Obj.get row I.name = Value.undef →
    (normalizeInsertColumns table (MemoryAdapter.makeContext schema) (cpre ++ I :: cpost) row) s
      = (Except.ok row', s') →
    Obj.get row' I.name =
        Value.int (Int.ofNat (seqGet s (storeName schema table) + 1)) ∧
    seqGet s' (storeName schema table) = seqGet s (storeName schema table) + 1 := by
  intro cpre
  induction cpre with
  | nil =>
    intro cpost row s row' s' _ hpost hundef h
    have h0 : (normalizeInsertColumns table (MemoryAdapter.makeContext schema)
      (I :: cpost) row) s = (Except.ok row', s') := h
    rw [normalizeInsertColumns] at h0
    rw [M.bind_apply_ok _ _ s _ _
      (normalizeInsertColumn_identity_eq schema table I hIid row s hundef)] at h0
    have hpl := normalizeInsertColumns_nonid_post schema table I.name cpost
      (Obj.set row I.name (Value.int (Int.ofNat (seqGet s (storeName schema table) + 1))))
      ⟨s.stores, mapSet s.sequences (storeName schema table)
        (seqGet s (storeName schema table) + 1)⟩
      row' s' hpost h0
    rcases hpl with ⟨hs', hget⟩
    constructor
    · rw [hget, Obj.get_set_self]
    · rw [hs']
      show (listGet? (mapSet s.sequences (storeName schema table)
        (seqGet s (storeName schema table) + 1)) (storeName schema table)).getD 0 = _
      rw [listGet?_mapSet_self]
      rfl
  | cons c cpre' ih =>
    intro cpost row s row' s' hpre hpost hundef h
    have h0 : (normalizeInsertColumns table (MemoryAdapter.makeContext schema)
      (c :: (cpre' ++ I :: cpost)) row) s = (Except.ok row', s') := h
    rw [normalizeInsertColumns] at h0
    rcases hx : (normalizeInsertColumn table (MemoryAdapter.makeContext schema) row c) s
      with ⟨r1, s1⟩
    rw [M.bind_apply, hx] at h0
    cases r1 with
    | error e =>
      have h2 : ((Except.error e, s1) : (Except String Obj) × MemState) =
        (Except.ok row', s') := h0
      cases congrArg Prod.fst h2
    | ok row1 =>
      have h2 : (normalizeInsertColumns table (MemoryAdapter.makeContext schema)
        (cpre' ++ I :: cpost) row1) s1 = (Except.ok row', s') := h0
      have hc := hpre c (List.mem_cons_self c cpre')
      rcases normalizeInsertColumn_nonid schema table c hc.1 row s row1 s1 hx with ⟨hs1, v, hrow1⟩
      rw [hs1] at h2
      exact ih cpost row1 s row' s'
        (fun d hd => hpre d (List.mem_cons_of_mem c hd)) hpost
        (by rw [hrow1, Obj.get_set_ne row c.name I.name v (fun he => hc.2 he.symm)]
            exact hundef)
        h2

end Mistfall

namespace Mistfall

theorem insertOne_identity (schema : Schema) (table : Table) (I : Column)
    (cpre cpost : List Column)
    (hcols : table.columns = cpre ++ I :: cpost)
    (hIid : I.constraints.identity = true)
    (hpre : ∀ c ∈ cpre, c.constraints.identity = false ∧ ¬(c.name = I.name))
    (hpost : ∀ c ∈ cpost, c.constraints.identity = false ∧ ¬(c.name = I.name))
    (hidx : ∀ idx ∈ table.indexes, ∀ cf, idx.computed = some cf → cf.field ≠ I.name)
    (v : Obj) (hv : Obj.get v I.name = Value.undef)
    (s : MemState) (r : Obj) (s' : MemState)
    (h : (insertOne schema table (MemoryAdapter.makeContext schema) v) s = (Except.ok r, s')) :
    Obj.get r I.name = Value.int (Int.ofNat (seqGet s (storeName schema table) + 1)) ∧
    seqGet s' (storeName schema table) = seqGet s (storeName schema table) + 1 := by
  rw [insertOne] at h
  rcases hx : (normalizeInsertRow (some schema) table v (MemoryAdapter.makeContext schema)) s
    with ⟨r0, s1⟩
  rw [M.bind_apply, hx] at h
  cases r0 with
  | error e =>
    have h2 : ((Except.error e, s1) : (Except String Obj) × MemState) = (Except.ok r, s') := h
    cases congrArg Prod.fst h2
  | ok nr0 =>
    have hnorm : Obj.get nr0 I.name =
        Value.int (Int.ofNat (seqGet s (storeName schema table) + 1)) ∧
        seqGet s1 (storeName schema table) = seqGet s (storeName schema table) + 1 := by
      rw [normalizeInsertRow] at hx
      rcases hy : (normalizeInsertColumns table (MemoryAdapter.makeContext schema)
        table.columns v) s with ⟨rr, s0⟩
      rw [M.bind_apply, hy] at hx
      cases rr with
      | error e =>
        have h3 : ((Except.error e, s0) : (Except String Obj) × MemState) =
          (Except.ok nr0, s1) := hx
        cases congrArg Prod.fst h3
      | ok row0 =>
        have h3 : ((ensureForeignKeys (some schema) table row0
            (MemoryAdapter.makeContext schema) >>= fun _ => M.pure row0) s0) =
            (Except.ok nr0, s1) := hx
        rw [M.bind_apply] at h3
        rcases hz : (ensureForeignKeys (some schema) table row0
          (MemoryAdapter.makeContext schema)) s0 with ⟨rf, s2⟩
        rw [hz] at h3
        have hs2 : s2 = s0 := by
          have hst := ensureForeignKeys_state schema table row0 s0
          rw [hz] at hst
          exact hst
        cases rf with
        | error e =>
          have h4 : ((Except.error e, s2) : (Except String Obj) × MemState) =
            (Except.ok nr0, s1) := h3
          cases congrArg Prod.fst h4
        | ok u =>
          have h4 : ((Except.ok row0, s2) : (Except String Obj) × MemState) =
            (Except.ok nr0, s1) := by
            have h5 : ((M.pure row0 : M Obj) s2) = (Except.ok nr0, s1) := h3
            rw [M.pure_def] at h5
            exact h5
          injection h4 with ha hb
          injection ha with ha
          rw [hcols] at hy
          have hloop := normalizeInsertColumns_identity schema table I hIid cpre cpost v s
            row0 s0 hpre hpost hv hy
          rw [← ha, ← hb, hs2]
          exact hloop
    have h2 : (((M.lift (primaryKeyColumn table) : M Column) >>= fun pkCol =>
        getStoreM schema table >>= fun store =>
        if listHas store (Obj.get (applyComputedFields table nr0) pkCol.name) then
          M.throw ("Primary key violation on " ++ table.name ++ "." ++ pkCol.name)
        else
          modifyStoreM schema table (fun st =>
            mapSet st (Obj.get (applyComputedFields table nr0) pkCol.name)
              (applyComputedFields table nr0)) >>=
            fun _ => M.pure (applyComputedFields table nr0)) s1) = (Except.ok r, s') := h
    cases hpk : primaryKeyColumn table with
    | error e =>
      rw [M.lift_bind_error (primaryKeyColumn table) _ s1 e hpk] at h2
      cases congrArg Prod.fst h2
    | ok pkCol =>
      rw [M.lift_bind_ok (primaryKeyColumn table) _ s1 pkCol hpk] at h2
      rw [getStoreM_bind] at h2
      by_cases hguard : listHas ((listGet? s1.stores (storeName schema table)).getD [])
          (Obj.get (applyComputedFields table nr0) pkCol.name) = true
      · rw [if_pos hguard, M.throw_apply] at h2
        cases congrArg Prod.fst h2
      · rw [if_neg hguard, modifyStoreM_bind, M.pure_def] at h2
        have h3 : ((Except.ok (applyComputedFields table nr0),
            (⟨mapSet s1.stores (storeName schema table)
              (mapSet ((listGet? s1.stores (storeName schema table)).getD [])
                (Obj.get (applyComputedFields table nr0) pkCol.name)
                (applyComputedFields table nr0)), s1.sequences⟩ : MemState)) :
            (Except String Obj) × MemState) = (Except.ok r, s') := h2
        injection h3 with ha hb
        injection ha with ha
        constructor
        · rw [← ha, applyComputedFields_get table nr0 I.name hidx]
          exact hnorm.1
        · rw [← hb]
          exact hnorm.2

theorem insertRows_singleton (schema : Schema) (table : Table) (v : Obj) (s : MemState)
    (r : Obj) (s' : MemState)
    (h : (insertRows schema table [v]) s = (Except.ok [r], s')) :
    (insertOne schema table (MemoryAdapter.makeContext schema) v) s = (Except.ok r, s') := by
  have h0 : ((insertOne schema table (MemoryAdapter.makeContext schema) v >>= fun n =>
      insertRowsAux schema table (MemoryAdapter.makeContext schema) [] ([] ++ [n])) s) =
      (Except.ok [r], s') := h
  rcases hx : (insertOne schema table (MemoryAdapter.makeContext schema) v) s with ⟨r1, s1⟩
  rw [M.bind_apply, hx] at h0
  cases r1 with
  | error e =>
    have h2 : ((Except.error e, s1) : (Except String (List Obj)) × MemState) =
      (Except.ok [r], s') := h0
    cases congrArg Prod.fst h2
  | ok n =>
    have h2 : ((Except.ok [n], s1) : (Except String (List Obj)) × MemState) =
      (Except.ok [r], s') := h0
    injection h2 with ha hb
    injection ha with ha
    injection ha with hn _
    rw [hn, hb]

end Mistfall

namespace Mistfall

/-- C5: identity values are strictly increasing positive integers, per
table, and never reused. For a table whose identity column `I` is unique
among its columns (no other column is an identity or shares its name, and
no computed index overwrites it), a successful insert that leaves `I`
unset commits `I = current sequence counter + 1`; so for any two such
inserts — with an arbitrary sequence of client operations, including
deletes, run between them — the two allocated values `k1` and `k2` are
positive integers with `k1 < k2`, and a fresh counter starts at `1`.
(Sequence counters only ever grow, so a deleted row's identity is never
handed out again.) -/
theorem identity_strictly_increasing (schema : Schema) (table : Table) (I : Column)
    (cpre cpost : List Column)
    (hcols : table.columns = cpre ++ I :: cpost)
    (hIid : I.constraints.identity = true)
    (hpre : ∀ c ∈ cpre, c.constraints.identity = false ∧ ¬(c.name = I.name))
    (hpost : ∀ c ∈ cpost, c.constraints.identity = false ∧ ¬(c.name = I.name))
    (hidx : ∀ idx ∈ table.indexes, ∀ cf, idx.computed = some cf → cf.field ≠ I.name)
    (v1 v2 : Obj) (hv1 : Obj.get v1 I.name = Value.undef)
    (hv2 : Obj.get v2 I.name = Value.undef)
    (s0 : MemState) (r1 : Obj) (s1 : MemState)
    (h1 : (insertRows schema table [v1]) s0 = (Except.ok [r1], s1))
    (ops : List ClientOp) (r2 : Obj) (s3 : MemState)
    (h2 : (insertRows schema table [v2]) (runOps schema ops s1) = (Except.ok [r2], s3)) :
    ∃ k1 k2 : Nat,
      Obj.get r1 I.name = Value.int (Int.ofNat k1) ∧
      Obj.get r2 I.name = Value.int (Int.ofNat k2) ∧
      1 ≤ k1 ∧ k1 < k2 ∧
      (seqGet s0 (storeName schema table) = 0 → k1 = 1) := by
  have ha := insertOne_identity schema table I cpre cpost hcols hIid hpre hpost hidx v1 hv1
    s0 r1 s1 (insertRows_singleton schema table v1 s0 r1 s1 h1)
  have hb := insertOne_identity schema table I cpre cpost hcols hIid hpre hpost hidx v2 hv2
    (runOps schema ops s1) r2 s3 (insertRows_singleton schema table v2 _ r2 s3 h2)
  refine ⟨seqGet s0 (storeName schema table) + 1,
    seqGet (runOps schema ops s1) (storeName schema table) + 1, ha.1, hb.1, ?_, ?_, ?_⟩
  · omega
  · have hmono := runOps_seq_mono schema ops s1 (storeName schema table)
    have ha2 := ha.2
    omega
  · intro h0
    omega

theorem identity_strictly_increasing_witness :
    ∃ k1 k2 : Nat,
      Obj.get [("name", Value.str "x"), ("id", Value.int 1)] "id" =
        Value.int (Int.ofNat k1) ∧
      Obj.get [("name", Value.str "y"), ("id", Value.int 2)] "id" =
        Value.int (Int.ofNat k2) ∧
      1 ≤ k1 ∧ k1 < k2 ∧
      (seqGet demoState "demo__users" = 0 → k1 = 1) :=
  identity_strictly_increasing demoSchema usersTable
    ⟨"id", pkIdentityFlags, none, none, none, none⟩
    [] [⟨"name", notNullFlags, none, none, none, none⟩]
    rfl rfl
    (fun c hc => absurd hc (List.not_mem_nil c))
    (by
      intro c hc
      rw [List.mem_singleton] at hc
      subst hc
      exact ⟨rfl, by decide⟩)
    (fun idx hidx0 => absurd hidx0 (List.not_mem_nil idx))
    [("name", Value.str "x")] [("name", Value.str "y")] rfl rfl
    demoState [("name", Value.str "x"), ("id", Value.int 1)] userState1 rfl
    [ClientOp.opDelete usersTable (fun _ => true)]
    [("name", Value.str "y"), ("id", Value.int 2)]
    ⟨[("demo__users", [(Value.int 2, [("name", Value.str "y"), ("id", Value.int 2)])]),
      ("demo__todos", [])], [("demo__users", 2)]⟩
    rfl

end Mistfall
